import Mathlib

/-!
Verification of the vastai provisioning GUI's data-model and script-codec
subsystem (src/main/python/data_manager.py, script_utils.py,
category_panels.py).

Python strings are modelled as `List Char` (one entry per code point),
dictionaries with a fixed key set as structures, and the item dictionaries
`{url, checked, name, folder}` as a structure whose fields record an absent
key as `none` where the source ever distinguishes it:
  - `url : Option Str` - `none` models a dict without a "url" key (a "url"
    key holding JSON null behaves the same at every use site and is folded
    into `none`);
  - `checked : Option Bool` - `none` models an absent "checked" key;
  - `name : Option Str` - `none` models an absent "name" key or a None
    value (every use site tests them with the same truthiness check);
  - `folder : Str` - an absent "folder" key behaves as "" at every use
    site and the load/validate paths immediately fill "" in, so the absent
    key is folded into `""`.
The top-level `self.data` dict is one Python dict holding the 18 category
lists, the scalar "max_parallel_downloads" and the dict "folder_metadata";
it is modelled as a structure with the category association list and the
two reserved keys as separate fields, and the reserved keys never occur in
the association list. Network access (`fetch_model_metadata`) is modelled
as an oracle parameter `resolve : Str -> Option Str`.
-/

set_option maxHeartbeats 1000000
set_option maxRecDepth 10000

/-- Python strings as lists of characters. -/
abbrev Str := List Char

/-- Python's default `str.strip()` character class. -/
def isSpaceC (c : Char) : Bool :=
  c = ' ' || c = '\t' || c = '\n' || c = '\x0d' || c = '\x0b' || c = '\x0c'

/-- Python `str.lstrip()`. -/
def lstripL (s : Str) : Str := s.dropWhile isSpaceC

/-- Python `str.rstrip()`. -/
def rstripL (s : Str) : Str := (s.reverse.dropWhile isSpaceC).reverse

/-- Python `str.strip()`. -/
def stripL (s : Str) : Str := rstripL (lstripL s)

/-- Boolean string-prefix test, used to model both `str.startswith` and the
anchoring of `re.match`. -/
def isPre : Str → Str → Bool
  | [], _ => true
  | _ :: _, [] => false
  | a :: as, b :: bs => decide (a = b) && isPre as bs

/-- Python `'\n'` in `str.split('\n')`: split at every newline, keeping
empty pieces (`splitNl [] = [[]]`, like `"".split("\n") == [""]`). -/
def splitNl : Str → List Str
  | [] => [[]]
  | c :: rest =>
      if c = '\n' then [] :: splitNl rest
      else
        match splitNl rest with
        | l :: ls => (c :: l) :: ls
        | [] => [[c]]

/-- Python `'\n'.join(lines)`. -/
def joinNl : List Str → Str
  | [] => []
  | [l] => l
  | l :: ls => l ++ '\n' :: joinNl ls

/-- Association-list lookup, modelling Python dict indexing over the fixed
key sets used by the program. -/
def alookup (k : Str) : List (Str × α) → Option α
  | [] => none
  | kv :: rest => if kv.1 = k then some kv.2 else alookup k rest

/-- Association-list update of an existing key (Python `d[k] = v`; every
use site updates a key that is present, and an absent key is left absent). -/
def assocSet (k : Str) (v : α) : List (Str × α) → List (Str × α)
  | [] => []
  | kv :: rest => if kv.1 = k then (k, v) :: rest else kv :: assocSet k v rest

/-- Association-list deletion (Python `del d[k]`). -/
def aerase (k : Str) : List (Str × α) → List (Str × α)
  | [] => []
  | kv :: rest => if kv.1 = k then rest else kv :: aerase k rest

/-- Python `str.replace(pat, val)` body, with an explicit fuel bound on
the number of scanning steps so the recursion is structural (and hence
kernel-evaluable); `replaceAll` always supplies enough fuel. -/
def replaceAllF (pat val : Str) : Nat → Str → Str
  | 0, s => s
  | _ + 1, [] => []
  | fuel + 1, c :: rest =>
      if pat ≠ [] ∧ isPre pat (c :: rest) = true then
        val ++ replaceAllF pat val fuel ((c :: rest).drop pat.length)
      else
        c :: replaceAllF pat val fuel rest

/-- Python `str.replace(pat, val)` (all occurrences, left to right,
non-overlapping). The placeholders this program replaces are never empty;
for an empty `pat` the model returns `s` unchanged. -/
def replaceAll (pat val : Str) (s : Str) : Str := replaceAllF pat val s.length s

/-- ASCII decimal digit test (the source's regexes are used on ASCII
script text; Python's `\d` additionally matches non-ASCII digits, which
never occur in this program's data). -/
def isDigitC (c : Char) : Bool := decide ('0' ≤ c) && decide (c ≤ '9')

/-- Value of a nonempty ASCII digit string, as Python `int` on it. -/
def digitsToNat (ds : Str) : Nat := ds.foldl (fun acc c => acc * 10 + (c.toNat - 48)) 0

/-- Decimal digits of a natural number, most significant first, with a
structural fuel bound (`natDigits` supplies enough fuel). -/
def natDigitsF : Nat → Nat → Str
  | 0, _ => []
  | _ + 1, 0 => []
  | fuel + 1, n + 1 =>
      natDigitsF fuel ((n + 1) / 10) ++ [Char.ofNat (48 + (n + 1) % 10)]

/-- Decimal digits of a natural number, most significant first. -/
def natDigits (n : Nat) : Str := natDigitsF n n

/-- Python `str(n)` for an `int` value. -/
def intStr (n : Int) : Str :=
  if n = 0 then ['0']
  else if n < 0 then '-' :: natDigits n.natAbs
  else natDigits n.natAbs

/-- Nonempty all-digit string parse (the core of Python `int(str)`). -/
def parseDigitsInt (s : Str) : Option Nat :=
  if s ≠ [] ∧ s.all isDigitC then some (digitsToNat s) else none

/-- Python `int(s)` on a string: surrounding whitespace and a single sign
are allowed, otherwise the digits must be nonempty (numeric-literal
underscores and non-ASCII digits, which this program never feeds in, are
out of the model). `none` models the `ValueError` branch. -/
def parseIntStr (s : Str) : Option Int :=
  match stripL s with
  | '-' :: ds => (parseDigitsInt ds).map (fun n => -(n : Int))
  | '+' :: ds => (parseDigitsInt ds).map (fun n => (n : Int))
  | ds => (parseDigitsInt ds).map (fun n => (n : Int))

/-- The Python values `update_max_parallel_downloads` is called with in
this program: ints (from the parser and the settings spin box) and strings. -/
inductive PyVal
  | vint (n : Int)
  | vstr (s : Str)
deriving DecidableEq

/-- Python `int(value)` over those values; `none` models the raised
`ValueError`/`TypeError`. -/
def pyToInt : PyVal → Option Int
  | .vint n => some n
  | .vstr s => parseIntStr s

/-- One item dict `{url, checked, name, folder}` (see the module comment
for the encoding of absent keys). -/
structure Item where
  url : Option Str
  checked : Option Bool
  name : Option Str
  folder : Str
deriving DecidableEq

/-- One folder-metadata entry (`create_folder`): display-only state. -/
structure FolderMeta where
  expanded : Bool
  custom_icon : Option Str
  description : Str
deriving DecidableEq

/-- The in-memory `self.data` dict of `DataManager` (see module comment). -/
structure Database where
  cats : List (Str × List Item)
  max_parallel_downloads : Int
  folder_metadata : List (Str × List (Str × FolderMeta))
deriving DecidableEq

/-- The reserved scalar key. -/
def mpdKey : Str := "max_parallel_downloads".data

/-- The reserved folder-metadata key. -/
def fmKey : Str := "folder_metadata".data

/-- The 18 category keys of `_get_default_data`, in dict insertion order. -/
def categoryKeys : List Str :=
  (["apt_packages", "pip_packages", "nodes", "workflows", "checkpoint_models",
    "unet_models", "lora_models", "vae_models", "esrgan_models", "upscale_models",
    "controlnet_models", "annotator_models", "clip_vision_models",
    "text_encoder_models", "diffusion_models", "clip_models", "style_models",
    "pulid_models"]).map String.data

/-- `DataManager._get_default_data`: all categories empty, scalar 4, no
folder metadata. -/
def defaultData : Database :=
  { cats := categoryKeys.map (fun k => (k, [])),
    max_parallel_downloads := 4,
    folder_metadata := [] }

/-- Python `category in self.data` for the modelled dict. -/
def inDataB (db : Database) (k : Str) : Bool :=
  (alookup k db.cats).isSome || decide (k = mpdKey) || decide (k = fmKey)

/-- `data.get(category, [])` as used by the script generator. -/
def getAllD (db : Database) (k : Str) : List Item := (alookup k db.cats).getD []

/-- `DataManager.add_item`. `resolve` is the `fetch_model_metadata` network
oracle. The duplicate test mirrors
`any(isinstance(item, dict) and item.get("url") == url for item ...)`;
in the typed model every list entry is an item dict. For
`category == "folder_metadata"` the source would raise `AttributeError`
(`.append` on a dict); no caller in the program reaches that branch and the
model returns failure without mutation there. -/
def add_item (resolve : Str → Option Str) (db : Database) (category url : Str)
    (checked : Bool) : Bool × Database :=
  if !(inDataB db category) || decide (category = mpdKey) then (false, db)
  else
    match alookup category db.cats with
    | some items =>
        if items.any (fun i => decide (i.url = some url)) then (false, db)
        else
          let item : Item := { url := some url, checked := some checked,
                               name := resolve url, folder := [] }
          (true, { db with cats := assocSet category (items ++ [item]) db.cats })
    | none => (false, db)

/-- `DataManager.remove_item`. For `category == "folder_metadata"` the
source's list comprehension iterates the dict's keys (strings), drops all
of them, and replaces the dict with an empty list; the model records that
as emptied folder metadata. -/
def remove_item (db : Database) (category url : Str) : Bool × Database :=
  if !(inDataB db category) || decide (category = mpdKey) then (false, db)
  else
    match alookup category db.cats with
    | some items =>
        let items' := items.filter (fun i => !(decide (i.url = some url)))
        (true, { db with cats := assocSet category items' db.cats })
    | none => (true, { db with folder_metadata := [] })

/-- Update of the first item with the given url (`update_item_checked_state`'s
loop returns on the first match); `none` when no item matches. -/
def updFirstChecked (url : Str) (b : Bool) : List Item → Option (List Item)
  | [] => none
  | i :: rest =>
      if i.url = some url then some ({ i with checked := some b } :: rest)
      else (updFirstChecked url b rest).map (i :: ·)

/-- Name update of the first item with the given url. -/
def updFirstName (url : Str) (n : Str) : List Item → Option (List Item)
  | [] => none
  | i :: rest =>
      if i.url = some url then some ({ i with name := some n } :: rest)
      else (updFirstName url n rest).map (i :: ·)

/-- `DataManager.update_item_checked_state`. With
`category == "folder_metadata"` the loop iterates dict keys, finds no item
dict, and returns `False`. -/
def update_item_checked_state (db : Database) (category url : Str) (checked : Bool) :
    Bool × Database :=
  if !(inDataB db category) || decide (category = mpdKey) then (false, db)
  else
    match alookup category db.cats with
    | some items =>
        match updFirstChecked url checked items with
        | some items' => (true, { db with cats := assocSet category items' db.cats })
        | none => (false, db)
    | none => (false, db)

/-- `DataManager.update_item_name`. -/
def update_item_name (db : Database) (category url name : Str) : Bool × Database :=
  if !(inDataB db category) || decide (category = mpdKey) then (false, db)
  else
    match alookup category db.cats with
    | some items =>
        match updFirstName url name items with
        | some items' => (true, { db with cats := assocSet category items' db.cats })
        | none => (false, db)
    | none => (false, db)

/-- `DataManager.clear_all_selections`: set `checked = False` on every item
of every list-valued key ("max_parallel_downloads" is excluded by the key
test and "folder_metadata" by the `isinstance(..., list)` test). -/
def clear_all_selections (db : Database) : Database :=
  { db with cats := db.cats.map (fun kv =>
      (kv.1, kv.2.map (fun i => { i with checked := some false }))) }

/-- `DataManager.get_all_items`. For `category == "folder_metadata"` the
source returns the metadata dict itself; no caller relevant to the claims
uses that key and the typed model returns `[]` there. -/
def get_all_items (db : Database) (category : Str) : List Item :=
  if !(inDataB db category) || decide (category = mpdKey) then []
  else
    match alookup category db.cats with
    | some items => items
    | none => []

/-- `DataManager.update_max_parallel_downloads`: `int(value)` with raised
conversion errors caught and reported as `False`; any obtained int
(including values below 1) is stored. -/
def update_max_parallel_downloads (db : Database) (value : PyVal) : Bool × Database :=
  match pyToInt value with
  | some n => (true, { db with max_parallel_downloads := n })
  | none => (false, db)

/-- `DataManager.delete_folder`: guard `category in self.data` and
`isinstance(self.data[category], list)`; reparent every item whose folder
merely starts with `folder_path` (plain `str.startswith`, no `/` boundary);
drop the folder's metadata entry when present. -/
def delete_folder (db : Database) (category folder_path : Str) : Bool × Database :=
  match alookup category db.cats with
  | none => (false, db)
  | some items =>
      let items' := items.map (fun i =>
        if isPre folder_path i.folder then { i with folder := [] } else i)
      let fm' :=
        match alookup category db.folder_metadata with
        | some m =>
            if (alookup folder_path m).isSome then
              assocSet category (aerase folder_path m) db.folder_metadata
            else db.folder_metadata
        | none => db.folder_metadata
      (true, { db with cats := assocSet category items' db.cats, folder_metadata := fm' })

/-!  Script generation (`ScriptGenerator.generate_script`). -/

/-- One rendered array line of `generate_script.format_array`:
`    "url"` with ` # name` appended when the name is truthy and differs
from the url. -/
def renderLine (url : Str) (name : Option Str) : Str :=
  match name with
  | some n =>
      if n ≠ [] ∧ n ≠ url then
        "    \"".data ++ url ++ "\" # ".data ++ n
      else
        "    \"".data ++ url ++ "\"".data
  | none => "    \"".data ++ url ++ "\"".data

/-- `generate_script.format_array`: keep the explicitly checked item dicts
(`item.get('checked', False)` truthy), skip empty urls, render one line
each, and join with newlines. -/
def format_array (items : List Item) : Str :=
  if items.isEmpty then []
  else if (items.filter (fun i => i.checked.getD false)).isEmpty then []
  else
    joinNl ((items.filter (fun i => i.checked.getD false)).filterMap (fun i =>
      if (i.url.getD []).isEmpty then none
      else some (renderLine (i.url.getD []) i.name)))

/-- The 18 shell array variable names, in the order of both the
`replacements` dict of `generate_script` and the `patterns` dict of
`ScriptParser`. -/
def markersBase : List String :=
  ["APT_PACKAGES", "PIP_PACKAGES", "NODES", "WORKFLOWS", "CHECKPOINT_MODELS",
   "UNET_MODELS", "LORA_MODELS", "VAE_MODELS", "ESRGAN_MODELS", "UPSCALE_MODELS",
   "CONTROLNET_MODELS", "ANNOTATOR_MODELS", "CLIP_VISION_MODELS",
   "TEXT_ENCODER_MODELS", "DIFFUSION_MODELS", "CLIP_MODELS", "STYLE_MODELS",
   "PULID_MODELS"]

/-- `ScriptParser.patterns`: category key paired with the literal part
`NAME=(` of its regex `NAME=\((.*?)\)`. -/
def patternsList : List (Str × Str) :=
  categoryKeys.zip (markersBase.map (fun m => (m ++ "=(").data))

/-- The marker of one category key. -/
def markerOfKey (k : Str) : Str := (alookup k patternsList).getD []

/-- The placeholder tokens of the `replacements` dict, category part. -/
def placeholders : List Str :=
  (["{apt_packages}", "{pip_packages}", "{nodes}", "{workflows}",
    "{checkpoint_models}", "{unet_models}", "{lora_models}", "{vae_models}",
    "{esrgan_models}", "{upscale_models}", "{controlnet_models}",
    "{annotator_models}", "{clip_vision_models}", "{text_encoder_models}",
    "{diffusion_models}", "{clip_models}", "{style_models}",
    "{pulid_models}"]).map String.data

/-- Modelled from the spec: the repository's script template resource
`template.sh` is not among the provided source files (only the Python
sources are). Section 6 of the specification fixes its contract: one shell
array variable per category holding a parenthesized, newline-separated
list of double-quoted strings, plus one bare integer setting, with each
array fed from the category's placeholder. The model therefore uses one
`NAME=(` block per category, in the parser's category order, each wrapping
its placeholder on its own line, followed by the scalar assignment. -/
def templateSh : Str :=
  (((markersBase.zip
      ["{apt_packages}", "{pip_packages}", "{nodes}", "{workflows}",
       "{checkpoint_models}", "{unet_models}", "{lora_models}", "{vae_models}",
       "{esrgan_models}", "{upscale_models}", "{controlnet_models}",
       "{annotator_models}", "{clip_vision_models}", "{text_encoder_models}",
       "{diffusion_models}", "{clip_models}", "{style_models}",
       "{pulid_models}"]).foldr
      (fun mp acc => mp.1 ++ "=(\n" ++ mp.2 ++ "\n)\n" ++ acc)
      "MAX_PARALLEL_DOWNLOADS={max_parallel_downloads}\n")).data

/-- The `replacements` dict of `generate_script`, in insertion order. -/
def replacementsOf (data : Database) : List (Str × Str) :=
  (placeholders.zip (categoryKeys.map (fun k => format_array (getAllD data k)))) ++
    [("{max_parallel_downloads}".data, intStr data.max_parallel_downloads)]

/-- The replacement loop of `generate_script`. -/
def applyReps (t : Str) (reps : List (Str × Str)) : Str :=
  reps.foldl (fun acc pv => replaceAll pv.1 pv.2 acc) t

/-- The generator's error message for an unreadable template (the source
interpolates the template path into it). -/
def templateMissingMsg : Str := "Template file not found!".data

/-- `ScriptGenerator.generate_script`: the template file's content is the
`Option Str` input (`none` models `FileNotFoundError` on open, re-raised
as the template-not-found error); with a template in hand the function
performs the replacements and returns the script. -/
def generate_script (template : Option Str) (data : Database) : Except Str Str :=
  match template with
  | none => Except.error templateMissingMsg
  | some t => Except.ok (applyReps t (replacementsOf data))

/-!  Script parsing (`ScriptParser.parse_script`). -/

/-- Characters of the non-greedy group of `NAME=\((.*?)\)` after the
marker matched: everything before the first `)`, or `none` when no `)`
follows (the pattern then cannot match at this start position). -/
def takeUntilParen : Str → Option Str
  | [] => none
  | c :: rest => if c = ')' then some [] else (takeUntilParen rest).map (c :: ·)

/-- `re.search(NAME=\((.*?)\), content, re.DOTALL)`: the leftmost start
position where the whole pattern matches, with the shortest group. -/
def findBlock (marker : Str) : Str → Option Str
  | [] => none
  | c :: rest =>
      if isPre marker (c :: rest) then
        match takeUntilParen ((c :: rest).drop marker.length) with
        | some blk => some blk
        | none => findBlock marker rest
      else findBlock marker rest

/-- The `takeWhile`-prefix of non-quote characters (`[^"]+`, greedy). -/
def takeNotQuote : Str → Str
  | [] => []
  | c :: rest => if c = '"' then [] else c :: takeNotQuote rest

/-- The optional trailing group `(?:\s*#\s*(.*))?` of the line regex,
followed by the parser's `.strip()` and emptiness test on the captured
comment. -/
def commentOf (rest2 : Str) : Option Str :=
  match lstripL rest2 with
  | '#' :: r2 =>
      let g := lstripL r2
      if g = [] then none else some (stripL g)
  | _ => none

/-- `re.match('"([^"]+)"(?:\s*#\s*(.*))?', line)` on a stripped line that
starts with `"`. -/
def parseQuoted : Str → Option (Str × Option Str)
  | '"' :: rest =>
      let u := takeNotQuote rest
      (match rest.drop u.length with
       | '"' :: rest2 => if u = [] then none else some (u, commentOf rest2)
       | _ => none)
  | _ => none

/-- One line of `_extract_urls_from_array`'s loop: strip, require a leading
quote, and run the line regex. -/
def parseLine0 (line : Str) : Option (Str × Option Str) := parseQuoted (stripL line)

/-- `ScriptParser._extract_urls_from_array`. -/
def extract_urls_from_array (content marker : Str) : List (Str × Option Str) :=
  match findBlock marker content with
  | none => []
  | some blk => (splitNl (stripL blk)).filterMap parseLine0

/-- Python truthiness of the optional strings the parser tests
(`if comment`, `not existing_item.get('name')`). -/
def pyTruthyS : Option Str → Bool
  | some s => !s.isEmpty
  | none => false

/-- The body of `parse_script`'s per-url loop: look the url up in the
category, mark an existing item checked (adopting the comment as name only
when no truthy name is stored), or add a new item (adopting the comment as
name when present). -/
def processUrl (resolve : Str → Option Str) (key : Str) (db : Database)
    (uc : Str × Option Str) : Database :=
  match (get_all_items db key).find? (fun i => decide (i.url = some uc.1)) with
  | some existing =>
      let db1 := (update_item_checked_state db key uc.1 true).2
      if pyTruthyS uc.2 && !(pyTruthyS existing.name) then
        (update_item_name db1 key uc.1 (uc.2.getD [])).2
      else db1
  | none =>
      let db1 := (add_item resolve db key uc.1 true).2
      if pyTruthyS uc.2 then (update_item_name db1 key uc.1 (uc.2.getD [])).2 else db1

/-- The literal part of `re.search(r'MAX_PARALLEL_DOWNLOADS=(\d+)', ...)`. -/
def mpdMarker : Str := "MAX_PARALLEL_DOWNLOADS=".data

/-- That search: leftmost occurrence of the literal followed by at least
one digit; the group is the maximal digit run. -/
def findMaxParallel : Str → Option Nat
  | [] => none
  | c :: rest =>
      if isPre mpdMarker (c :: rest) then
        (let ds := ((c :: rest).drop mpdMarker.length).takeWhile isDigitC
         if ds = [] then findMaxParallel rest else some (digitsToNat ds))
      else findMaxParallel rest

/-- `ScriptParser.parse_script`: uncheck everything, process every
category's block, then apply the scalar setting when the scalar regex
matched (the matched digits always convert, so the `ValueError` arm of the
source is dead). The per-url and per-category `try` blocks re-raise, and
no modelled operation raises for the parser's fixed category keys, so the
model is total. -/
def parse_script (resolve : Str → Option Str) (content : Str) (dm : Database) :
    Database :=
  let db0 := clear_all_selections dm
  let db1 := patternsList.foldl
    (fun db km => (extract_urls_from_array content km.2).foldl
      (processUrl resolve km.1) db) db0
  match findMaxParallel content with
  | some n => (update_max_parallel_downloads db1 (PyVal.vint (Int.ofNat n))).2
  | none => db1

/-!  Folder tri-state aggregation (`CategoryPanel._update_folder_tri_state`). -/

/-- The three Qt check states a folder row can show. -/
inductive TriState
  | unchecked
  | partiallyChecked
  | checked
deriving DecidableEq

/-- One row of the category tree: a model row with its checkbox state, a
folder row with its children, or a row the loop skips (no user data or
another type). -/
inductive TreeNode
  | model (checked : Bool)
  | folder (children : List TreeNode)
  | blank

/-- Contribution of one child state toward `checked_children`, counted in
half units so the source's exact float arithmetic (increments of 1 and
0.5) becomes `Nat` arithmetic: checked adds 2, partial adds 1. -/
def triUnits : TriState → Nat
  | .checked => 2
  | .partiallyChecked => 1
  | .unchecked => 0

/-- The final `if`-chain of `_update_folder_tri_state` over
`total_children` and twice `checked_children`. -/
def stateOfCounts (total units : Nat) : TriState :=
  if total = 0 then .unchecked
  else if units = 0 then .unchecked
  else if units = 2 * total then .checked
  else .partiallyChecked

/-- The counting loop of `_update_folder_tri_state`: `total_children` and
twice `checked_children` over the immediate children, a nested folder
child contributing through its own (bottom-up recomputed) tri-state. -/
def folderCounts : List TreeNode → Nat × Nat
  | [] => (0, 0)
  | .model c :: rest =>
      let tu := folderCounts rest
      (tu.1 + 1, tu.2 + (if c then 2 else 0))
  | .folder cs :: rest =>
      let inner := folderCounts cs
      let tu := folderCounts rest
      (tu.1 + 1, tu.2 + triUnits (stateOfCounts inner.1 inner.2))
  | .blank :: rest => folderCounts rest

/-- The derived display state of a folder with the given children. -/
def aggState (cs : List TreeNode) : TriState :=
  stateOfCounts (folderCounts cs).1 (folderCounts cs).2

/-- The display state of any tree row (a model row shows its own checkbox). -/
def nodeState : TreeNode → TriState
  | .model c => if c then .checked else .unchecked
  | .folder cs => aggState cs
  | .blank => .unchecked

/-- A child row the counting loop counts (a model or folder row). -/
def countedB : TreeNode → Bool
  | .model _ => true
  | .folder _ => true
  | .blank => false

/-- A counted child contributing its full weight. -/
def fullB : TreeNode → Bool
  | .model c => c
  | .folder cs => decide (aggState cs = TriState.checked)
  | .blank => false

/-- A counted child contributing any weight at all. -/
def contribB : TreeNode → Bool
  | .model c => c
  | .folder cs =>
      decide (aggState cs = TriState.checked) ||
        decide (aggState cs = TriState.partiallyChecked)
  | .blank => false

/-!  Database loading (`DataManager.load_database`,
`DataManager._validate_and_fix_data`). -/

/-- One element of a category's list in the loaded JSON: a bare string
(legacy format), an item-shaped dict, or anything else. -/
inductive JEntry
  | jstr (s : Str)
  | jobj (url : Option Str) (checked : Option Bool) (name : Option Str)
      (folder : Option Str)
  | jother
deriving DecidableEq

/-- A category key's value in the loaded JSON: a list or not a list. -/
inductive JCat
  | jlist (es : List JEntry)
  | jnonlist
deriving DecidableEq

/-- The loaded JSON snapshot, restricted to the keys the merge loop reads.
`maxParallel = some n` models a present integer value (the source copies
any JSON value verbatim into the scalar slot; non-integer values there are
outside the typed model and unused by the claims). For `folderMeta`,
the outer option is key presence and the inner option is the
`isinstance(..., dict)` test, with a well-typed metadata mapping. -/
structure LoadedData where
  cats : List (Str × JCat)
  maxParallel : Option Int
  folderMeta : Option (Option (List (Str × List (Str × FolderMeta))))

/-- The legacy branch's conversion `{"url": item, "checked": True, "name":
None, "folder": ""}` applied to every element when the first element is a
bare string. For a non-string element (possible only in a mixed legacy
list) the source stores the raw value as the url; that value is not a
string and is recorded as an absent url, a corner no later operation of
the claims reaches. -/
def legacyItem : JEntry → Item
  | .jstr s => { url := some s, checked := some true, name := none, folder := [] }
  | _ => { url := none, checked := some true, name := none, folder := [] }

/-- The new-format branch's per-element conversion: copy a dict filling in
missing `name`/`folder`, upgrade a stray bare string, skip other shapes. -/
def newConv : JEntry → Option Item
  | .jobj u c n f => some { url := u, checked := c, name := n, folder := f.getD [] }
  | .jstr s => some { url := some s, checked := some true, name := none, folder := [] }
  | .jother => none

/-- The merge of one category key: keep the default when the key is absent
or not list-valued; take the legacy branch when the list's first element
is a bare string; otherwise convert element-wise. -/
def mergeCat (defItems : List Item) : Option JCat → List Item
  | none => defItems
  | some .jnonlist => defItems
  | some (.jlist es) =>
      match es with
      | .jstr _ :: _ => es.map legacyItem
      | _ => es.filterMap newConv

/-- `_validate_and_fix_data` on one category list: drop entries without a
url key, default a missing checked field to `True`. (Its bare-string
branch is exercised only on loaded JSON and is handled in the conversion
above; its missing-`name`/`folder` fills are identities in the typed
model.) -/
def validateItems (items : List Item) : List Item :=
  items.filterMap (fun i =>
    match i.url with
    | none => none
    | some _ => some { i with checked := some (i.checked.getD true) })

/-- `_validate_and_fix_data` over the whole database. -/
def validateDb (db : Database) : Database :=
  { db with cats := db.cats.map (fun kv => (kv.1, validateItems kv.2)) }

/-- `DataManager.load_database` from the starting default-shaped data:
`none` models a missing database file as well as the caught exception of a
corrupt one (both leave the default data and only validate); `some`
carries the parsed JSON, which is merged key by key over the default keys
and then validated. The function is total: every exception of the source's
body is caught by its `try`/`except`. -/
def load_database (loaded : Option LoadedData) : Database :=
  match loaded with
  | none => validateDb defaultData
  | some ld =>
      validateDb
        { cats := defaultData.cats.map (fun kv =>
            (kv.1, mergeCat kv.2 (alookup kv.1 ld.cats))),
          max_parallel_downloads :=
            match ld.maxParallel with
            | some n => n
            | none => defaultData.max_parallel_downloads,
          folder_metadata :=
            match ld.folderMeta with
            | none => defaultData.folder_metadata
            | some (some m) => m
            | some none => [] }

/-!  Support definitions for the statements and concrete instances below. -/

/-- Weight one child row adds to twice `checked_children`. -/
def unitsOf : TreeNode → Nat
  | .model c => if c then 2 else 0
  | .folder cs => triUnits (aggState cs)
  | .blank => 0

/-- A metadata oracle that resolves nothing (network unavailable). -/
def noResolve : Str → Option Str := fun _ => none

/-- The category key used by the concrete instances. -/
def ckKey : Str := "checkpoint_models".data

/-- Reparenting applied by `delete_folder` to one item. -/
def reparent (p : Str) (i : Item) : Item :=
  if isPre p i.folder then { i with folder := [] } else i

/-- A database with one checked checkpoint item whose folder is "ab". -/
def c6Db : Database :=
  let items : List Item :=
    [{ url := some "u".data, checked := some true, name := none, folder := "ab".data }]
  { defaultData with cats := assocSet ckKey items defaultData.cats }

/-- A database with checkpoint items in folders "a/b" and "x". -/
def c6wDb : Database :=
  let items : List Item :=
    [{ url := some "u1".data, checked := some true, name := none, folder := "a/b".data },
     { url := some "u2".data, checked := some false, name := none, folder := "x".data }]
  { defaultData with cats := assocSet ckKey items defaultData.cats }

/-- The database after one successful `add_item` of url "u". -/
def c4Db : Database := (add_item noResolve defaultData ckKey "u".data true).2

/-- A database with one checkpoint item of url "u". -/
def c10Db : Database :=
  let items : List Item :=
    [{ url := some "u".data, checked := some true, name := none, folder := [] }]
  { defaultData with cats := assocSet ckKey items defaultData.cats }

/-- A loaded snapshot whose checkpoint category is a legacy list of two
bare strings. -/
def c7Ld : LoadedData :=
  { cats := [(ckKey, JCat.jlist [JEntry.jstr "u1".data, JEntry.jstr "u2".data])],
    maxParallel := none,
    folderMeta := none }

/-- A database holding checkpoint items A (checked) and B (unchecked). -/
def c2Db : Database :=
  let items : List Item :=
    [{ url := some "A".data, checked := some true, name := none, folder := [] },
     { url := some "B".data, checked := some false, name := none, folder := [] }]
  { defaultData with cats := assocSet ckKey items defaultData.cats }

/-- A preset text naming only url A in the checkpoint block. -/
def c2Text : Str := "CHECKPOINT_MODELS=(\n    \"A\"\n)\n".data

/-- A database with one checked checkpoint item whose url is the empty
string (reachable through `add_item(category, \"\")`). -/
def c1CexDb : Database :=
  let items : List Item :=
    [{ url := some [], checked := some true, name := none, folder := [] }]
  { defaultData with cats := assocSet ckKey items defaultData.cats }

/-- The database of the claim's concrete instance: one checked checkpoint
item with a resolved name. -/
def c1WDb : Database :=
  let items : List Item :=
    [{ url := some "https://host/a.safetensors".data, checked := some true,
       name := some "Model A".data, folder := [] }]
  { defaultData with cats := assocSet ckKey items defaultData.cats }

/-- Urls of the explicitly checked items of a category. -/
def checkedUrls (db : Database) (category : Str) : List Str :=
  (getAllD db category).filterMap (fun i =>
    if i.checked = some true then some (i.url.getD []) else none)

/-- Well-formedness of a checked item's url demanded by the amended
round-trip claim: nonempty and free of the script syntax's
metacharacters. -/
def urlWF (u : Str) : Prop :=
  u ≠ [] ∧ '"' ∉ u ∧ '(' ∉ u ∧ ')' ∉ u ∧ '\n' ∉ u ∧ '{' ∉ u

/-- Well-formedness of a checked item's stored name: free of the script
syntax's metacharacters and already stripped (a name with outer whitespace
cannot round-trip, because the parser strips the captured comment). -/
def nameWF : Option Str → Prop
  | none => True
  | some n => '(' ∉ n ∧ ')' ∉ n ∧ '\n' ∉ n ∧ '{' ∉ n ∧ lstripL n = n ∧ rstripL n = n

/-- An item fit for exact round-tripping when checked. -/
def itemWF (i : Item) : Prop :=
  i.checked = some true → urlWF (i.url.getD []) ∧ nameWF i.name

instance : DecidablePred urlWF := fun u => by unfold urlWF; infer_instance

instance : DecidablePred nameWF := fun n => by
  cases n <;> simp [nameWF] <;> infer_instance

instance : DecidablePred itemWF := fun i => by unfold itemWF; infer_instance

/-- Item transformation of `clear_all_selections`. -/
def clearItem (i : Item) : Item := { i with checked := some false }

/-- The action of one `processUrl` call on the processed category's own
list - the only list `parse_script` touches for that call. -/
def catStep (resolve : Str → Option Str) (uc : Str × Option Str)
    (items : List Item) : List Item :=
  match items.find? (fun i => decide (i.url = some uc.1)) with
  | some existing =>
      let items1 := (updFirstChecked uc.1 true items).getD items
      if pyTruthyS uc.2 && !(pyTruthyS existing.name) then
        (updFirstName uc.1 (uc.2.getD []) items1).getD items1
      else items1
  | none =>
      let items1 := items ++
        [{ url := some uc.1, checked := some true, name := resolve uc.1,
           folder := [] }]
      if pyTruthyS uc.2 then (updFirstName uc.1 (uc.2.getD []) items1).getD items1
      else items1

/-- The category list after processing a whole block's extracted pairs. -/
def catFold (resolve : Str → Option Str) (pairs : List (Str × Option Str))
    (items : List Item) : List Item :=
  pairs.foldl (fun its uc => catStep resolve uc its) items

/-!  Support definitions for the round-trip development: the shape of the
generated script text and of the template, and the parser's view of one
emitted line. -/

/-- One rendered array block of the script text: marker (ending in `(`),
newline, substituted value, newline, `)`, newline. -/
def catBlock (m v : Str) : Str := m ++ '\n' :: (v ++ '\n' :: ')' :: ['\n'])

/-- Concatenation of rendered blocks. -/
def blocksFlat : List (Str × Str) → Str
  | [] => []
  | mv :: rest => catBlock mv.1 mv.2 ++ blocksFlat rest

/-- The scalar line closing the generated script. -/
def scriptTail (n : Int) : Str := mpdMarker ++ intStr n ++ ['\n']

/-- Marker/placeholder pairs of the modelled template, in block order. -/
def mpShape : List (Str × Str) := (patternsList.map Prod.snd).zip placeholders

/-- The category values the generator substitutes, in block order. -/
def valsOf (data : Database) : List Str :=
  categoryKeys.map (fun k => format_array (getAllD data k))

/-- The fully substituted script text. -/
def scriptText (data : Database) : Str :=
  blocksFlat ((patternsList.map Prod.snd).zip (valsOf data)) ++
    scriptTail data.max_parallel_downloads

/-- A template assembled from marker/placeholder segments around a tail. -/
def tmplMP : List (Str × Str) → Str → Str
  | [], t => t
  | mp :: rest, t => mp.1 ++ '\n' :: (mp.2 ++ ('\n' :: ')' :: '\n' :: tmplMP rest t))

/-- The replacement list pairing each placeholder with its value. -/
def repsMP : List (Str × Str) → List Str → List (Str × Str)
  | [], _ => []
  | _ :: _, [] => []
  | mp :: rest, v :: vs => (mp.2, v) :: repsMP rest vs

/-- The blocks obtained by substituting each value for its placeholder. -/
def blocksMP : List (Str × Str) → List Str → Str
  | [], _ => []
  | _ :: _, [] => []
  | mp :: rest, v :: vs => catBlock mp.1 v ++ blocksMP rest vs

/-- Substring occurrence test. -/
def containsSub (p : Str) : Str → Bool
  | [] => isPre p []
  | c :: rest => isPre p (c :: rest) || containsSub p rest

/-- No placeholder occurs in the template part that follows its own
segment (checked once on the concrete template shape). -/
def seqNoOccMP : List (Str × Str) → Str → Bool
  | [], _ => true
  | mp :: rest, t =>
      !(containsSub mp.2 ('\n' :: ')' :: '\n' :: tmplMP rest t)) && seqNoOccMP rest t

/-- No occurrence of `p` starts within the first argument (with the second
argument as the continuation of the text). -/
def noStartIn (p : Str) : Str → Str → Bool
  | [], _ => true
  | c :: rest, tail => !(isPre p (c :: rest ++ tail)) && noStartIn p rest tail

/-- Shape of every array marker `NAME=(`: nonempty, `(` exactly at the
end, and free of newline and `)`. -/
def markerShapeB (p : Str) : Bool :=
  decide (p ≠ []) && decide (p.getLast? = some '(') &&
    decide ('(' ∉ p.dropLast) && decide ('\n' ∉ p) && decide (')' ∉ p)

/-- The comment the parser captures back from one emitted line. -/
def commentOut (i : Item) : Option Str :=
  match i.name with
  | some n =>
      if n ≠ [] ∧ n ≠ i.url.getD [] then
        (if stripL n = [] then none else some (stripL n))
      else none
  | none => none

/-- The (url, comment) pair the parser extracts from one emitted line. -/
def emittedPair (i : Item) : Str × Option Str := (i.url.getD [], commentOut i)

/-- The explicitly checked items of a category list (the generator's
filter). -/
def checkedOf (items : List Item) : List Item :=
  items.filter (fun i => i.checked.getD false)

/-- The scalar placeholder of the template's last line. -/
def mpdPh : Str := "{max_parallel_downloads}".data

/-- The tail segment of the modelled template: the scalar line. -/
def tailT : Str := mpdMarker ++ mpdPh ++ ['\n']

/-!  Association-list helper lemmas. -/

theorem vp_alookup_assocSet_ne {α : Type} (c k : Str) (v : α) (l : List (Str × α))
    (h : c ≠ k) : alookup c (assocSet k v l) = alookup c l := by
  induction l with
  | nil => rfl
  | cons kv rest ih =>
      by_cases hk : kv.1 = k
      · have hc : ¬ (k = c) := fun hh => h (hh ▸ rfl)
        simp [assocSet, hk, alookup, hc, hk ▸ hc]
      · simp [assocSet, hk, alookup, ih]

theorem vp_alookup_assocSet_self {α : Type} (k : Str) (v : α) (l : List (Str × α)) :
    alookup k (assocSet k v l) = (alookup k l).map (fun _ => v) := by
  induction l with
  | nil => rfl
  | cons kv rest ih =>
      by_cases hk : kv.1 = k
      · simp [assocSet, hk, alookup]
      · simp [assocSet, hk, alookup, ih]

theorem vp_aerase_absent {α : Type} (k : Str) (l : List (Str × α))
    (h : alookup k l = none) : aerase k l = l := by
  induction l with
  | nil => rfl
  | cons kv rest ih =>
      by_cases hk : kv.1 = k
      · simp [alookup, hk] at h
      · simp [alookup, hk] at h
        simp [aerase, hk, ih h]

/-- C4: adding a url that is already present in the category returns
`False` and leaves the whole database unchanged. -/
theorem c4_duplicate_add_rejected (resolve : Str → Option Str) (db : Database)
    (category url : Str) (checked : Bool)
    (hdup : ∃ i ∈ (alookup category db.cats).getD [], i.url = some url) :
    add_item resolve db category url checked = (false, db) := by
  unfold add_item
  split
  · rfl
  · cases hlk : alookup category db.cats with
    | none => simp
    | some items =>
        rw [hlk] at hdup
        obtain ⟨i, hi, hu⟩ := hdup
        have hany : items.any (fun i => decide (i.url = some url)) = true := by
          rw [List.any_eq_true]
          exact ⟨i, hi, by simp [hu]⟩
        simp [hany]

theorem c4_duplicate_add_rejected_witness :
    add_item noResolve c4Db ckKey "u".data true = (false, c4Db) ∧
    (getAllD c4Db ckKey).length = 1 :=
  ⟨c4_duplicate_add_rejected noResolve c4Db ckKey "u".data true (by decide),
   by decide⟩

/-- C5 counterexample: `update_max_parallel_downloads(0)` succeeds and
stores 0, although the claim says every value below 1 is rejected. -/
theorem c5_value_below_one_accepted_cex :
    (update_max_parallel_downloads defaultData (PyVal.vint 0)).1 = true ∧
    (update_max_parallel_downloads defaultData (PyVal.vint 0)).2.max_parallel_downloads
      = 0 := by
  constructor <;> rfl

/-- C5 (amended): the setter fails exactly when `int(value)` fails (for
example on a non-numeric string), leaving the stored value unchanged; any
value convertible to an int - including ints below 1 - is accepted and
stored verbatim. -/
theorem c5_update_max_parallel_amended (db : Database) (value : PyVal) :
    (pyToInt value = none → update_max_parallel_downloads db value = (false, db)) ∧
    (∀ n, pyToInt value = some n →
      update_max_parallel_downloads db value =
        (true, { db with max_parallel_downloads := n })) := by
  constructor
  · intro h
    unfold update_max_parallel_downloads
    rw [h]
  · intro n h
    unfold update_max_parallel_downloads
    rw [h]

theorem c5_update_max_parallel_amended_witness :
    update_max_parallel_downloads defaultData (PyVal.vstr "abc".data) =
      (false, defaultData) ∧
    defaultData.max_parallel_downloads = 4 :=
  ⟨(c5_update_max_parallel_amended defaultData (PyVal.vstr "abc".data)).1 (by decide),
   rfl⟩

/-- C9: a missing template is the surfaced fatal error of generation - the
generator returns the template-missing error and produces no script - and
with a template in hand generation always produces a script (no raise). -/
theorem c9_template_missing_fatal (data : Database) :
    generate_script none data = Except.error templateMissingMsg ∧
    ∀ t, ∃ out, generate_script (some t) data = Except.ok out :=
  ⟨rfl, fun t => ⟨applyReps t (replacementsOf data), rfl⟩⟩

/-- C10: `remove_item` returns `False` exactly for a key absent from the
data dict or for the scalar key, and for a category list it always returns
`True`, keeping exactly the items whose url differs (in order, unmodified). -/
theorem c10_remove_item_contract (db : Database) (category url : Str) :
    ((remove_item db category url).1 = false ↔
      (inDataB db category = false ∨ category = mpdKey)) ∧
    (∀ items, alookup category db.cats = some items → category ≠ mpdKey →
      remove_item db category url =
        (true, { db with cats := assocSet category (items.filter (fun i => !(decide (i.url = some url)))) db.cats })) := by
  constructor
  · unfold remove_item
    split
    · rename_i hguard
      simp only [Bool.or_eq_true, Bool.not_eq_true', decide_eq_true_eq] at hguard
      simp only [true_iff]
      rcases hguard with h | h
      · exact Or.inl h
      · exact Or.inr h
    · rename_i hguard
      simp only [Bool.or_eq_true, Bool.not_eq_true', decide_eq_true_eq] at hguard
      push_neg at hguard
      cases hlk : alookup category db.cats with
      | none => simp [hguard]
      | some items => simp [hguard]
  · intro items hlk hne
    unfold remove_item
    have hin : inDataB db category = true := by
      unfold inDataB
      simp [hlk]
    rw [hin]
    simp only [Bool.not_true, Bool.false_or]
    rw [decide_eq_false hne]
    simp [hlk]

theorem c10_remove_item_contract_witness :
    remove_item c10Db ckKey "v".data = (true, c10Db) ∧
    (getAllD c10Db ckKey).length = 1 ∧
    remove_item c10Db mpdKey "u".data = (false, c10Db) := by
  refine ⟨?_, by decide, ?_⟩
  · have h := (c10_remove_item_contract c10Db ckKey "v".data).2
      ((alookup ckKey c10Db.cats).getD []) (by decide) (by decide)
    rw [h]
    decide
  · have h := (c10_remove_item_contract c10Db mpdKey "u".data).1
    have : (remove_item c10Db mpdKey "u".data).1 = false := h.mpr (Or.inr rfl)
    revert this
    decide

/-- C6 counterexample: deleting folder "a" also reparents an item whose
folder is "ab" - a folder that merely shares "a" as a string prefix, which
the claim says keeps its folder. -/
theorem c6_delete_folder_cex :
    (getAllD (delete_folder c6Db ckKey "a".data).2 ckKey).map Item.folder = [[]] ∧
    (getAllD c6Db ckKey).map Item.folder = ["ab".data] := by
  constructor <;> decide

/-- C6 (amended): `delete_folder` on a category list returns `True`, sets
`folder := ""` on exactly those items whose folder has `p` as a plain
string prefix (so also folder "ab" when deleting "a") leaving every other
item's fields unchanged, removes `p`'s entry from the category's folder
metadata when present, and touches nothing else. -/
theorem c6_delete_folder_amended (db : Database) (category p : Str)
    (items : List Item) (hlk : alookup category db.cats = some items) :
    (delete_folder db category p).1 = true ∧
    alookup category (delete_folder db category p).2.cats =
      some (items.map (reparent p)) ∧
    (∀ c, c ≠ category →
      alookup c (delete_folder db category p).2.cats = alookup c db.cats) ∧
    alookup category (delete_folder db category p).2.folder_metadata =
      (alookup category db.folder_metadata).map (aerase p) ∧
    (∀ c, c ≠ category →
      alookup c (delete_folder db category p).2.folder_metadata =
        alookup c db.folder_metadata) ∧
    (delete_folder db category p).2.max_parallel_downloads =
      db.max_parallel_downloads := by
  unfold delete_folder
  rw [hlk]
  simp only
  refine ⟨trivial, ?_, ?_, ?_, ?_, trivial⟩
  · rw [vp_alookup_assocSet_self, hlk]
    simp [reparent]
  · intro c hc
    exact vp_alookup_assocSet_ne c category _ db.cats hc
  · cases hfm : alookup category db.folder_metadata with
    | none => exact hfm
    | some m =>
        cases hp : alookup p m with
        | some v =>
            simp only [hp, Option.isSome_some]
            rw [if_pos trivial, vp_alookup_assocSet_self, hfm]
            rfl
        | none =>
            simp only [hp, Option.isSome_none]
            rw [if_neg (by simp), hfm]
            simp [vp_aerase_absent p m hp]
  · intro c hc
    cases hfm : alookup category db.folder_metadata with
    | none => rfl
    | some m =>
        cases hp : alookup p m with
        | some v =>
            simp only [hp, Option.isSome_some]
            rw [if_pos trivial]
            exact vp_alookup_assocSet_ne c category _ db.folder_metadata hc
        | none =>
            simp only [hp, Option.isSome_none]
            rw [if_neg (by simp)]

theorem c6_delete_folder_amended_witness :
    (delete_folder c6wDb ckKey "a".data).1 = true ∧
    alookup ckKey (delete_folder c6wDb ckKey "a".data).2.cats =
      some (((alookup ckKey c6wDb.cats).getD []).map (reparent "a".data)) ∧
    (((alookup ckKey c6wDb.cats).getD []).map (reparent "a".data)).map Item.folder =
      [[], "x".data] := by
  have h := c6_delete_folder_amended c6wDb ckKey "a".data
    ((alookup ckKey c6wDb.cats).getD []) (by decide)
  exact ⟨h.1, h.2.1, by decide⟩

/-!  List helper lemmas for the generator characterization. -/

theorem vp_filter_filter {α : Type} (p q : α → Bool) (l : List α) :
    (l.filter p).filter q = l.filter (fun a => p a && q a) := by
  induction l with
  | nil => rfl
  | cons a rest ih =>
      by_cases hp : p a <;> by_cases hq : q a <;>
        simp [List.filter_cons, hp, hq, ih]

theorem vp_filterMap_if {α β : Type} (g : α → β) (q : α → Bool) (l : List α) :
    l.filterMap (fun a => if q a then none else some (g a)) =
      (l.filter (fun a => !q a)).map g := by
  induction l with
  | nil => rfl
  | cons a rest ih =>
      by_cases hq : q a <;> simp [List.filterMap_cons, List.filter_cons, hq, ih]

/-- C3: the generator's per-category output consists of exactly one
rendered quoted line for each item that is explicitly checked and has a
nonempty url - an item whose checked field is false or absent contributes
no line - while `get_all_items` on a category list still returns every
item unfiltered. -/
theorem c3_generate_filters_on_checked :
    (∀ items : List Item,
      format_array items =
        joinNl ((items.filter
            (fun i => i.checked.getD false && !(i.url.getD []).isEmpty)).map
          (fun i => renderLine (i.url.getD []) i.name))) ∧
    (∀ (db : Database) (category : Str),
      (alookup category db.cats).isSome = true → category ≠ mpdKey →
      get_all_items db category = (alookup category db.cats).getD []) := by
  constructor
  · intro items
    unfold format_array
    rw [← vp_filter_filter]
    split_ifs with h1 h2
    · have : items = [] := by
        cases items with
        | nil => rfl
        | cons hd tl => simp at h1
      subst this
      simp [joinNl]
    · have hc : items.filter (fun i => i.checked.getD false) = [] := by
        cases h : items.filter (fun i => i.checked.getD false) with
        | nil => rfl
        | cons hd tl => rw [h] at h2; simp at h2
      rw [hc]
      simp [joinNl]
    · rw [vp_filterMap_if (fun (i : Item) => renderLine (i.url.getD []) i.name)
        (fun (i : Item) => (i.url.getD []).isEmpty)]
  · intro db category hsome hne
    unfold get_all_items
    have hin : inDataB db category = true := by
      unfold inDataB
      simp [hsome]
    rw [hin]
    simp only [Bool.not_true, Bool.false_or]
    rw [decide_eq_false hne]
    cases h : alookup category db.cats with
    | none => rw [h] at hsome; simp at hsome
    | some items => simp [h]

theorem c3_generate_filters_on_checked_witness :
    get_all_items c10Db ckKey = (alookup ckKey c10Db.cats).getD [] :=
  (c3_generate_filters_on_checked).2 c10Db ckKey (by decide) (by decide)

/-!  Tri-state aggregation lemmas. -/

theorem vp_fc_fst (cs : List TreeNode) :
    (folderCounts cs).1 = (cs.filter countedB).length := by
  induction cs with
  | nil => simp [folderCounts]
  | cons n rest ih =>
      cases n <;> simp [folderCounts, countedB, List.filter_cons, ih]

theorem vp_fc_snd (cs : List TreeNode) :
    (folderCounts cs).2 = (cs.map unitsOf).sum := by
  induction cs with
  | nil => simp [folderCounts]
  | cons n rest ih =>
      cases n <;> simp [folderCounts, unitsOf, aggState, ih, Nat.add_comm]

theorem vp_unitsOf_le (n : TreeNode) : unitsOf n ≤ 2 := by
  cases n with
  | model c => cases c <;> simp [unitsOf]
  | folder cs =>
      simp only [unitsOf]
      cases aggState cs <;> simp [triUnits]
  | blank => simp [unitsOf]

theorem vp_uncounted_units (n : TreeNode) (hc : countedB n = false) :
    unitsOf n = 0 := by
  cases n with
  | model c => simp [countedB] at hc
  | folder cs => simp [countedB] at hc
  | blank => rfl

theorem vp_full_units (n : TreeNode) (hc : countedB n = true) :
    (fullB n = true ↔ unitsOf n = 2) := by
  cases n with
  | model c => cases c <;> simp [fullB, unitsOf]
  | folder cs =>
      simp only [fullB, unitsOf, decide_eq_true_eq]
      cases aggState cs <;> simp [triUnits]
  | blank => simp [countedB] at hc

theorem vp_contrib_units (n : TreeNode) :
    (contribB n = true ↔ 0 < unitsOf n) := by
  cases n with
  | model c => cases c <;> simp [contribB, unitsOf]
  | folder cs =>
      simp only [contribB, unitsOf, decide_eq_true_eq]
      cases aggState cs <;> simp [triUnits]
  | blank => simp [contribB, unitsOf]

theorem vp_units_sum_le (cs : List TreeNode) :
    (cs.map unitsOf).sum ≤ 2 * (cs.filter countedB).length := by
  induction cs with
  | nil => simp
  | cons n rest ih =>
      have hn := vp_unitsOf_le n
      cases hcn : countedB n <;>
        simp only [List.map_cons, List.sum_cons, List.filter_cons, hcn,
          Bool.false_eq_true, if_false, if_true, List.length_cons]
      · have := vp_uncounted_units n hcn
        omega
      · omega

theorem vp_units_sum_full (cs : List TreeNode)
    (h : ∀ n ∈ cs, countedB n = true → fullB n = true) :
    (cs.map unitsOf).sum = 2 * (cs.filter countedB).length := by
  induction cs with
  | nil => simp
  | cons n rest ih =>
      have hrest := ih (fun m hm => h m (List.mem_cons_of_mem n hm))
      cases hcn : countedB n <;>
        simp only [List.map_cons, List.sum_cons, List.filter_cons, hcn,
          Bool.false_eq_true, if_false, if_true, List.length_cons]
      · have := vp_uncounted_units n hcn
        omega
      · have : unitsOf n = 2 :=
          (vp_full_units n hcn).mp (h n (List.mem_cons_self n rest) hcn)
        omega

theorem vp_units_sum_zero (cs : List TreeNode)
    (h : ∀ n ∈ cs, countedB n = true → contribB n = false) :
    (cs.map unitsOf).sum = 0 := by
  induction cs with
  | nil => rfl
  | cons n rest ih =>
      have hrest := ih (fun m hm => h m (List.mem_cons_of_mem n hm))
      have hn : unitsOf n = 0 := by
        cases hcn : countedB n with
        | false => exact vp_uncounted_units n hcn
        | true =>
            have hcf := h n (List.mem_cons_self n rest) hcn
            by_contra hne
            have hpos : 0 < unitsOf n := Nat.pos_of_ne_zero hne
            have := (vp_contrib_units n).mpr hpos
            rw [this] at hcf
            cases hcf
      simp [hn, hrest]

theorem vp_units_sum_pos (cs : List TreeNode)
    (h : ∃ n ∈ cs, contribB n = true) : 0 < (cs.map unitsOf).sum := by
  obtain ⟨n, hn, hcb⟩ := h
  have hpos : 0 < unitsOf n := (vp_contrib_units n).mp hcb
  have hmem : unitsOf n ∈ cs.map unitsOf := List.mem_map_of_mem unitsOf hn
  have := List.single_le_sum (fun (x : Nat) _ => Nat.zero_le x) _ hmem
  omega

theorem vp_units_sum_lt (cs : List TreeNode)
    (h : ∃ n ∈ cs, countedB n = true ∧ fullB n = false) :
    (cs.map unitsOf).sum < 2 * (cs.filter countedB).length := by
  induction cs with
  | nil => simp at h
  | cons n rest ih =>
      obtain ⟨w, hw, hwc, hwf⟩ := h
      rcases List.mem_cons.mp hw with hw0 | hwrest
      · subst hw0
        have hle := vp_unitsOf_le w
        have hne : unitsOf w ≠ 2 := by
          intro h2
          rw [(vp_full_units w hwc).mpr h2] at hwf
          cases hwf
        have hrest := vp_units_sum_le rest
        simp only [List.map_cons, List.sum_cons, List.filter_cons, hwc,
          if_true, List.length_cons]
        omega
      · have hrest := ih ⟨w, hwrest, hwc, hwf⟩
        have hle := vp_unitsOf_le n
        cases hcn : countedB n <;>
          simp only [List.map_cons, List.sum_cons, List.filter_cons, hcn,
            Bool.false_eq_true, if_false, if_true, List.length_cons]
        · have := vp_uncounted_units n hcn
          omega
        · omega

/-- C8: a folder's derived state is one of exactly three values computed
from its immediate counted children: no counted children or no
contribution gives "unchecked", every counted child fully checked gives
"checked", and any mix gives "partial", a nested subfolder in the partial
state contributing one half toward the checked count; in particular
immediate items [true, false, true] give "partial", [true, true, true]
give "checked", and [false, false] give "unchecked". -/
theorem c8_tri_state_aggregation (cs : List TreeNode) :
    ((cs.filter countedB).length = 0 → aggState cs = TriState.unchecked) ∧
    ((cs.filter countedB).length ≠ 0 →
      (∀ n ∈ cs, countedB n = true → fullB n = true) →
      aggState cs = TriState.checked) ∧
    ((∀ n ∈ cs, countedB n = true → contribB n = false) →
      aggState cs = TriState.unchecked) ∧
    ((∃ n ∈ cs, contribB n = true) →
      (∃ n ∈ cs, countedB n = true ∧ fullB n = false) →
      aggState cs = TriState.partiallyChecked) ∧
    aggState [TreeNode.model true, TreeNode.model false, TreeNode.model true] =
      TriState.partiallyChecked ∧
    aggState [TreeNode.model true, TreeNode.model true, TreeNode.model true] =
      TriState.checked ∧
    aggState [TreeNode.model false, TreeNode.model false] = TriState.unchecked := by
  refine ⟨?_, ?_, ?_, ?_,
    by simp [aggState, folderCounts, stateOfCounts, triUnits],
    by simp [aggState, folderCounts, stateOfCounts, triUnits],
    by simp [aggState, folderCounts, stateOfCounts, triUnits]⟩
  · intro h0
    unfold aggState stateOfCounts
    rw [vp_fc_fst, h0]
    simp
  · intro hne hfull
    unfold aggState stateOfCounts
    rw [vp_fc_fst, vp_fc_snd, vp_units_sum_full cs hfull]
    have hpos : 0 < (cs.filter countedB).length := Nat.pos_of_ne_zero hne
    rw [if_neg (by omega), if_neg (by omega), if_pos rfl]
  · intro hnone
    unfold aggState stateOfCounts
    rw [vp_fc_fst, vp_fc_snd, vp_units_sum_zero cs hnone]
    by_cases h0 : (cs.filter countedB).length = 0
    · rw [if_pos h0]
    · rw [if_neg h0, if_pos rfl]
  · intro hpos hmix
    unfold aggState stateOfCounts
    rw [vp_fc_fst, vp_fc_snd]
    have h1 := vp_units_sum_pos cs hpos
    have h2 := vp_units_sum_lt cs hmix
    rw [if_neg (by omega), if_neg (by omega), if_neg (by omega)]

theorem c8_tri_state_aggregation_witness :
    aggState [TreeNode.blank] = TriState.unchecked ∧
    aggState [TreeNode.model true, TreeNode.folder [TreeNode.model true]] =
      TriState.checked ∧
    aggState [TreeNode.model false, TreeNode.folder [TreeNode.model false]] =
      TriState.unchecked ∧
    aggState [TreeNode.model true, TreeNode.folder [TreeNode.model false,
      TreeNode.model true]] = TriState.partiallyChecked :=
  ⟨(c8_tri_state_aggregation [TreeNode.blank]).1 (by decide),
   (c8_tri_state_aggregation _).2.1 (by decide)
     (by simp [countedB, fullB, aggState, folderCounts, stateOfCounts, triUnits]),
   (c8_tri_state_aggregation _).2.2.1
     (by simp [countedB, contribB, aggState, folderCounts, stateOfCounts, triUnits]),
   (c8_tri_state_aggregation _).2.2.2.1
     (by simp [contribB, aggState, folderCounts, stateOfCounts, triUnits])
     (by refine ⟨TreeNode.folder [TreeNode.model false, TreeNode.model true],
           by simp, by simp [countedB], ?_⟩
         simp [fullB, aggState, folderCounts, stateOfCounts, triUnits])⟩

/-!  Load-path lemmas. -/

theorem vp_alookup_map {α β : Type} (k : Str) (f : Str → α → β) (l : List (Str × α)) :
    alookup k (l.map (fun kv => (kv.1, f kv.1 kv.2))) = (alookup k l).map (f k) := by
  induction l with
  | nil => rfl
  | cons kv rest ih =>
      by_cases h : kv.1 = k
      · simp [alookup, h]
      · simp [alookup, h, ih]

theorem vp_map_fst {α β : Type} (f : Str → α → β) (l : List (Str × α)) :
    (l.map (fun kv => (kv.1, f kv.1 kv.2))).map Prod.fst = l.map Prod.fst := by
  induction l with
  | nil => rfl
  | cons kv rest ih => simp [ih]

theorem vp_map_fst_gen {α β : Type} (f : Str × α → Str × β) (l : List (Str × α))
    (h : ∀ kv, (f kv).1 = kv.1) :
    (l.map f).map Prod.fst = l.map Prod.fst := by
  induction l with
  | nil => rfl
  | cons kv rest ih => simp [h kv, ih]

theorem vp_validate_default : validateDb defaultData = defaultData := by rfl

theorem vp_default_cat : ∀ key ∈ categoryKeys, alookup key defaultData.cats = some [] := by
  decide

theorem vp_validate_fixed (ss : List Str) :
    validateItems (ss.map (fun u =>
      ({ url := some u, checked := some true, name := none,
         folder := [] } : Item))) =
    ss.map (fun u =>
      ({ url := some u, checked := some true, name := none,
         folder := [] } : Item)) := by
  induction ss with
  | nil => rfl
  | cons a as ih =>
      show ({ url := some a, checked := some true, name := none, folder := [] } : Item) :: validateItems (as.map _) = _
      rw [ih, List.map_cons]

/-- C7: loading a legacy snapshot whose category value is a list of bare
strings upgrades every entry to `{url, checked := true, name := None,
folder := ""}`; a missing or corrupt file (the caught-exception path)
falls back to the default-shaped data; and after any load every known
category key of the default schema is present, with a key absent from the
loaded file keeping its default empty list. The model is total, matching
the source's catch-all exception handler. -/
theorem c7_load_legacy_and_fallback :
    load_database none = defaultData ∧
    (∀ (ld : LoadedData) (key : Str) (ss : List Str),
      key ∈ categoryKeys →
      alookup key ld.cats = some (JCat.jlist (ss.map JEntry.jstr)) →
      alookup key (load_database (some ld)).cats =
        some (ss.map (fun u =>
          ({ url := some u, checked := some true, name := none,
             folder := [] } : Item)))) ∧
    (∀ ld : Option LoadedData, (load_database ld).cats.map Prod.fst = categoryKeys) ∧
    (∀ (ld : LoadedData) (key : Str), key ∈ categoryKeys →
      alookup key ld.cats = none →
      alookup key (load_database (some ld)).cats = some []) := by
  have hload : ∀ (ld : LoadedData) (key : Str),
      alookup key (load_database (some ld)).cats =
        (alookup key defaultData.cats).map (fun ditems =>
          validateItems (mergeCat ditems (alookup key ld.cats))) := by
    intro ld key
    show alookup key ((defaultData.cats.map (fun kv =>
        (kv.1, mergeCat kv.2 (alookup kv.1 ld.cats)))).map (fun kv =>
        (kv.1, validateItems kv.2))) = _
    rw [show (fun kv : Str × List Item => (kv.1, validateItems kv.2)) =
        (fun kv : Str × List Item => (kv.1, (fun _ v => validateItems v) kv.1 kv.2))
      from rfl]
    rw [vp_alookup_map key (fun _ v => validateItems v)]
    rw [vp_alookup_map key (fun k v => mergeCat v (alookup k ld.cats))]
    rw [Option.map_map]
    rfl
  refine ⟨vp_validate_default, ?_, ?_, ?_⟩
  · intro ld key ss hk hlk
    rw [hload, vp_default_cat key hk, hlk]
    cases ss with
    | nil => rfl
    | cons s rest =>
        show some (validateItems (mergeCat []
          (some (JCat.jlist ((s :: rest).map JEntry.jstr))))) = _
        have hml : mergeCat [] (some (JCat.jlist ((s :: rest).map JEntry.jstr))) =
            (s :: rest).map (fun u =>
              ({ url := some u, checked := some true, name := none,
                 folder := [] } : Item)) := by
          show (JEntry.jstr s :: rest.map JEntry.jstr).map legacyItem = _
          simp only [List.map_cons, List.map_map]
          rfl
        rw [hml, vp_validate_fixed]
  · intro ld
    cases ld with
    | none => decide
    | some ld =>
        show ((defaultData.cats.map (fun kv =>
            (kv.1, mergeCat kv.2 (alookup kv.1 ld.cats)))).map (fun kv =>
            (kv.1, validateItems kv.2))).map Prod.fst = _
        rw [vp_map_fst_gen (fun kv : Str × List Item =>
            (kv.1, validateItems kv.2)) _ (fun kv => rfl)]
        rw [vp_map_fst_gen (fun kv : Str × List Item =>
            (kv.1, mergeCat kv.2 (alookup kv.1 ld.cats))) _ (fun kv => rfl)]
        decide
  · intro ld key hk hlk
    rw [hload, vp_default_cat key hk, hlk]
    rfl

theorem c7_load_legacy_and_fallback_witness :
    alookup ckKey (load_database (some c7Ld)).cats =
      some (["u1".data, "u2".data].map (fun u =>
        ({ url := some u, checked := some true, name := none,
           folder := [] } : Item))) :=
  c7_load_legacy_and_fallback.2.1 c7Ld ckKey ["u1".data, "u2".data]
    (by decide) (by decide)

/-!  Parse-effect lemmas: first the two single-item updaters. -/

theorem vp_assocSet_assocSet {α : Type} (k : Str) (v1 v2 : α) (l : List (Str × α)) :
    assocSet k v2 (assocSet k v1 l) = assocSet k v2 l := by
  induction l with
  | nil => rfl
  | cons kv rest ih =>
      by_cases h : kv.1 = k
      · simp [assocSet, h]
      · simp [assocSet, h, ih]

theorem vp_isSome_map {α β : Type} (f : α → β) (o : Option α) :
    (o.map f).isSome = o.isSome := by
  cases o <;> rfl

theorem vp_updFirstChecked_isSome (u : Str) (b : Bool) (items : List Item) :
    (updFirstChecked u b items).isSome = true ↔ ∃ i ∈ items, i.url = some u := by
  induction items with
  | nil => simp [updFirstChecked]
  | cons i rest ih =>
      by_cases h : i.url = some u
      · simp [updFirstChecked, h]
      · simp only [updFirstChecked, h, if_false, List.mem_cons, vp_isSome_map]
        rw [ih]
        constructor
        · rintro ⟨j, hj, hju⟩
          exact ⟨j, Or.inr hj, hju⟩
        · rintro ⟨j, hj | hj, hju⟩
          · subst hj; exact absurd hju h
          · exact ⟨j, hj, hju⟩

theorem vp_updFirstName_isSome (u : Str) (n : Str) (items : List Item) :
    (updFirstName u n items).isSome = true ↔ ∃ i ∈ items, i.url = some u := by
  induction items with
  | nil => simp [updFirstName]
  | cons i rest ih =>
      by_cases h : i.url = some u
      · simp [updFirstName, h]
      · simp only [updFirstName, h, if_false, List.mem_cons, vp_isSome_map]
        rw [ih]
        constructor
        · rintro ⟨j, hj, hju⟩
          exact ⟨j, Or.inr hj, hju⟩
        · rintro ⟨j, hj | hj, hju⟩
          · subst hj; exact absurd hju h
          · exact ⟨j, hj, hju⟩

theorem vp_updFirstChecked_unf (u : Str) (b : Bool) (items items' : List Item)
    (h : updFirstChecked u b items = some items') :
    items'.map (fun i => (i.url, i.name, i.folder)) =
      items.map (fun i => (i.url, i.name, i.folder)) := by
  induction items generalizing items' with
  | nil => simp [updFirstChecked] at h
  | cons i rest ih =>
      by_cases hu : i.url = some u
      · simp only [updFirstChecked, hu, if_true, Option.some_inj] at h
        subst h
        simp [hu]
      · simp only [updFirstChecked, hu, if_false, Option.map_eq_some'] at h
        obtain ⟨rest', hrest, hcons⟩ := h
        subst hcons
        simp [ih rest' hrest]

theorem vp_updFirstName_unf (u n : Str) (items items' : List Item)
    (h : updFirstName u n items = some items') :
    items'.map (fun i => (i.url, i.checked, i.folder)) =
      items.map (fun i => (i.url, i.checked, i.folder)) := by
  induction items generalizing items' with
  | nil => simp [updFirstName] at h
  | cons i rest ih =>
      by_cases hu : i.url = some u
      · simp only [updFirstName, hu, if_true, Option.some_inj] at h
        subst h
        simp [hu]
      · simp only [updFirstName, hu, if_false, Option.map_eq_some'] at h
        obtain ⟨rest', hrest, hcons⟩ := h
        subst hcons
        simp [ih rest' hrest]

theorem vp_updFirstChecked_mem_true (u : Str) (items items' : List Item)
    (h : updFirstChecked u true items = some items') :
    ∃ i ∈ items', i.url = some u ∧ i.checked = some true := by
  induction items generalizing items' with
  | nil => simp [updFirstChecked] at h
  | cons i rest ih =>
      by_cases hu : i.url = some u
      · simp only [updFirstChecked, hu, if_true, Option.some_inj] at h
        subst h
        exact ⟨_, List.mem_cons_self _ _, by simp, by simp⟩
      · simp only [updFirstChecked, hu, if_false, Option.map_eq_some'] at h
        obtain ⟨rest', hrest, hcons⟩ := h
        subst hcons
        obtain ⟨j, hj, hju, hjc⟩ := ih rest' hrest
        exact ⟨j, List.mem_cons_of_mem i hj, hju, hjc⟩

theorem vp_updFirstChecked_pres_true (u' u : Str) (items items' : List Item)
    (h : updFirstChecked u' true items = some items')
    (hex : ∃ i ∈ items, i.url = some u ∧ i.checked = some true) :
    ∃ i ∈ items', i.url = some u ∧ i.checked = some true := by
  induction items generalizing items' with
  | nil => simp [updFirstChecked] at h
  | cons i rest ih =>
      obtain ⟨w, hw, hwu, hwc⟩ := hex
      by_cases hu : i.url = some u'
      · simp only [updFirstChecked, hu, if_true, Option.some_inj] at h
        subst h
        rcases List.mem_cons.mp hw with hw0 | hwr
        · refine ⟨_, List.mem_cons_self _ _, ?_, rfl⟩
          show some u' = some u
          rw [← hu, ← hw0]
          exact hwu
        · exact ⟨w, List.mem_cons_of_mem _ hwr, hwu, hwc⟩
      · simp only [updFirstChecked, hu, if_false, Option.map_eq_some'] at h
        obtain ⟨rest', hrest, hcons⟩ := h
        subst hcons
        rcases List.mem_cons.mp hw with hw0 | hwr
        · subst hw0
          exact ⟨w, List.mem_cons_self _ _, hwu, hwc⟩
        · obtain ⟨j, hj, hju, hjc⟩ := ih rest' hrest ⟨w, hwr, hwu, hwc⟩
          exact ⟨j, List.mem_cons_of_mem i hj, hju, hjc⟩

/-!  Characterizations of the three store operations `parse_script` uses. -/

theorem vp_inData_of_lookup (db : Database) (key : Str) (v : List Item)
    (hlk : alookup key db.cats = some v) : inDataB db key = true := by
  unfold inDataB
  simp [hlk]

theorem vp_update_checked_eq (db : Database) (key u : Str) (b : Bool)
    (items items' : List Item) (hlk : alookup key db.cats = some items)
    (hm : key ≠ mpdKey) (hupd : updFirstChecked u b items = some items') :
    update_item_checked_state db key u b =
      (true, { db with cats := assocSet key items' db.cats }) := by
  unfold update_item_checked_state
  rw [vp_inData_of_lookup db key items hlk]
  simp only [Bool.not_true, Bool.false_or]
  rw [decide_eq_false hm]
  simp [hlk, hupd]

theorem vp_update_name_eq (db : Database) (key u n : Str)
    (items items' : List Item) (hlk : alookup key db.cats = some items)
    (hm : key ≠ mpdKey) (hupd : updFirstName u n items = some items') :
    update_item_name db key u n =
      (true, { db with cats := assocSet key items' db.cats }) := by
  unfold update_item_name
  rw [vp_inData_of_lookup db key items hlk]
  simp only [Bool.not_true, Bool.false_or]
  rw [decide_eq_false hm]
  simp [hlk, hupd]

theorem vp_add_eq (resolve : Str → Option Str) (db : Database) (key u : Str)
    (chk : Bool) (items : List Item) (hlk : alookup key db.cats = some items)
    (hm : key ≠ mpdKey)
    (hnone : items.any (fun i => decide (i.url = some u)) = false) :
    add_item resolve db key u chk =
      (true, { db with cats := assocSet key (items ++
        [{ url := some u, checked := some chk, name := resolve u,
           folder := [] }]) db.cats }) := by
  unfold add_item
  rw [vp_inData_of_lookup db key items hlk]
  simp only [Bool.not_true, Bool.false_or]
  rw [decide_eq_false hm]
  simp [hlk, hnone]

theorem vp_get_all_eq (db : Database) (key : Str) (items : List Item)
    (hlk : alookup key db.cats = some items) (hm : key ≠ mpdKey) :
    get_all_items db key = items := by
  unfold get_all_items
  rw [vp_inData_of_lookup db key items hlk]
  simp only [Bool.not_true, Bool.false_or]
  rw [decide_eq_false hm]
  simp [hlk]

theorem vp_url_map_of_unf (items items' : List Item)
    (h : items'.map (fun i => (i.url, i.name, i.folder)) =
      items.map (fun i => (i.url, i.name, i.folder))) :
    items'.map (fun i => i.url) = items.map (fun i => i.url) := by
  have := congrArg (List.map Prod.fst) h
  simpa [List.map_map, Function.comp] using this

theorem vp_ex_url_of_map (items items' : List Item) (u : Str)
    (h : items'.map (fun i => i.url) = items.map (fun i => i.url))
    (hex : ∃ i ∈ items, i.url = some u) : ∃ i ∈ items', i.url = some u := by
  obtain ⟨i, hi, hiu⟩ := hex
  have : some u ∈ items'.map (fun i => i.url) := by
    rw [h]
    exact List.mem_map.mpr ⟨i, hi, hiu⟩
  obtain ⟨j, hj, hju⟩ := List.mem_map.mp this
  exact ⟨j, hj, hju⟩

/-!  Effect of one `processUrl` call. -/

theorem vp_processUrl_at (resolve : Str → Option Str) (key : Str) (db : Database)
    (uc : Str × Option Str) (items : List Item)
    (hlk : alookup key db.cats = some items) (hm : key ≠ mpdKey) :
    (processUrl resolve key db uc).cats =
      assocSet key (catStep resolve uc items) db.cats ∧
    (processUrl resolve key db uc).max_parallel_downloads =
      db.max_parallel_downloads ∧
    (processUrl resolve key db uc).folder_metadata = db.folder_metadata := by
  unfold processUrl catStep
  rw [vp_get_all_eq db key items hlk hm]
  cases hfind : items.find? (fun i => decide (i.url = some uc.1)) with
  | some ex =>
      have hex : ∃ i ∈ items, i.url = some uc.1 := by
        refine ⟨ex, List.mem_of_find?_eq_some hfind, ?_⟩
        have := List.find?_some hfind
        simpa using this
      have hupds : (updFirstChecked uc.1 true items).isSome = true :=
        (vp_updFirstChecked_isSome uc.1 true items).mpr hex
      cases hupd : updFirstChecked uc.1 true items with
      | none => rw [hupd] at hupds; simp at hupds
      | some items1 =>
          rw [vp_update_checked_eq db key uc.1 true items items1 hlk hm hupd]
          simp only [hupd, Option.getD_some]
          by_cases hcond : pyTruthyS uc.2 && !(pyTruthyS ex.name)
          · rw [if_pos hcond, if_pos hcond]
            have hlk1 : alookup key (assocSet key items1 db.cats) = some items1 := by
              rw [vp_alookup_assocSet_self, hlk]
              rfl
            have hex1 : ∃ i ∈ items1, i.url = some uc.1 :=
              vp_ex_url_of_map items items1 uc.1
                (vp_url_map_of_unf items items1
                  (vp_updFirstChecked_unf uc.1 true items items1 hupd)) hex
            have hupdn : (updFirstName uc.1 (uc.2.getD []) items1).isSome = true :=
              (vp_updFirstName_isSome uc.1 (uc.2.getD []) items1).mpr hex1
            cases hupd2 : updFirstName uc.1 (uc.2.getD []) items1 with
            | none => rw [hupd2] at hupdn; simp at hupdn
            | some items2 =>
                rw [vp_update_name_eq _ key uc.1 (uc.2.getD []) items1 items2
                  hlk1 hm hupd2]
                simp only [hupd2, Option.getD_some]
                exact ⟨vp_assocSet_assocSet key items1 items2 db.cats, trivial, trivial⟩
          · rw [if_neg hcond, if_neg hcond]
            exact ⟨rfl, rfl, rfl⟩
  | none =>
      have hnone : items.any (fun i => decide (i.url = some uc.1)) = false := by
        rw [List.any_eq_false]
        intro i hi
        have := List.find?_eq_none.mp hfind i hi
        simpa using this
      rw [vp_add_eq resolve db key uc.1 true items hlk hm hnone]
      simp only
      by_cases hcond : pyTruthyS uc.2
      · rw [if_pos hcond, if_pos hcond]
        set newi : Item := { url := some uc.1, checked := some true, name := resolve uc.1, folder := [] } with hnewi
        have hlk1 : alookup key (assocSet key (items ++ [newi]) db.cats) =
            some (items ++ [newi]) := by
          rw [vp_alookup_assocSet_self, hlk]
          rfl
        have hex1 : ∃ i ∈ items ++ [newi], i.url = some uc.1 :=
          ⟨newi, List.mem_append_right items (List.mem_cons_self newi []), rfl⟩
        have hupdn : (updFirstName uc.1 (uc.2.getD []) (items ++ [newi])).isSome =
            true :=
          (vp_updFirstName_isSome uc.1 (uc.2.getD []) (items ++ [newi])).mpr hex1
        cases hupd2 : updFirstName uc.1 (uc.2.getD []) (items ++ [newi]) with
        | none => rw [hupd2] at hupdn; simp at hupdn
        | some items2 =>
            rw [vp_update_name_eq _ key uc.1 (uc.2.getD []) (items ++ [newi])
              items2 hlk1 hm hupd2]
            simp only [hupd2, Option.getD_some]
            exact ⟨vp_assocSet_assocSet key (items ++ [newi]) items2 db.cats,
              trivial, trivial⟩
      · rw [if_neg hcond, if_neg hcond]
        exact ⟨rfl, rfl, rfl⟩

/-!  Frame lemmas: everything `processUrl` leaves untouched. -/

theorem vp_update_checked_frames (db : Database) (cat u : Str) (b : Bool) :
    (update_item_checked_state db cat u b).2.max_parallel_downloads =
      db.max_parallel_downloads ∧
    (update_item_checked_state db cat u b).2.folder_metadata =
      db.folder_metadata ∧
    (∀ c, c ≠ cat →
      alookup c (update_item_checked_state db cat u b).2.cats =
        alookup c db.cats) := by
  unfold update_item_checked_state
  split
  · exact ⟨rfl, rfl, fun c hc => rfl⟩
  · split
    · split
      · exact ⟨rfl, rfl, fun c hc => vp_alookup_assocSet_ne c cat _ db.cats hc⟩
      · exact ⟨rfl, rfl, fun c hc => rfl⟩
    · exact ⟨rfl, rfl, fun c hc => rfl⟩

theorem vp_update_name_frames (db : Database) (cat u n : Str) :
    (update_item_name db cat u n).2.max_parallel_downloads =
      db.max_parallel_downloads ∧
    (update_item_name db cat u n).2.folder_metadata = db.folder_metadata ∧
    (∀ c, c ≠ cat →
      alookup c (update_item_name db cat u n).2.cats = alookup c db.cats) := by
  unfold update_item_name
  split
  · exact ⟨rfl, rfl, fun c hc => rfl⟩
  · split
    · split
      · exact ⟨rfl, rfl, fun c hc => vp_alookup_assocSet_ne c cat _ db.cats hc⟩
      · exact ⟨rfl, rfl, fun c hc => rfl⟩
    · exact ⟨rfl, rfl, fun c hc => rfl⟩

theorem vp_add_frames (resolve : Str → Option Str) (db : Database) (cat u : Str)
    (chk : Bool) :
    (add_item resolve db cat u chk).2.max_parallel_downloads =
      db.max_parallel_downloads ∧
    (add_item resolve db cat u chk).2.folder_metadata = db.folder_metadata ∧
    (∀ c, c ≠ cat →
      alookup c (add_item resolve db cat u chk).2.cats = alookup c db.cats) := by
  unfold add_item
  split
  · exact ⟨rfl, rfl, fun c hc => rfl⟩
  · split
    · split
      · exact ⟨rfl, rfl, fun c hc => rfl⟩
      · exact ⟨rfl, rfl, fun c hc => vp_alookup_assocSet_ne c cat _ db.cats hc⟩
    · exact ⟨rfl, rfl, fun c hc => rfl⟩

theorem vp_processUrl_frames (resolve : Str → Option Str) (key : Str)
    (db : Database) (uc : Str × Option Str) :
    (processUrl resolve key db uc).max_parallel_downloads =
      db.max_parallel_downloads ∧
    (processUrl resolve key db uc).folder_metadata = db.folder_metadata ∧
    (∀ c, c ≠ key →
      alookup c (processUrl resolve key db uc).cats = alookup c db.cats) := by
  unfold processUrl
  split
  · split
    · have h1 := vp_update_checked_frames db key uc.1 true
      have h2 := vp_update_name_frames
        (update_item_checked_state db key uc.1 true).2 key uc.1 (uc.2.getD [])
      exact ⟨h2.1.trans h1.1, h2.2.1.trans h1.2.1,
        fun c hc => (h2.2.2 c hc).trans (h1.2.2 c hc)⟩
    · exact vp_update_checked_frames db key uc.1 true
  · split
    · have h1 := vp_add_frames resolve db key uc.1 true
      have h2 := vp_update_name_frames
        (add_item resolve db key uc.1 true).2 key uc.1 (uc.2.getD [])
      exact ⟨h2.1.trans h1.1, h2.2.1.trans h1.2.1,
        fun c hc => (h2.2.2 c hc).trans (h1.2.2 c hc)⟩
    · exact vp_add_frames resolve db key uc.1 true

theorem vp_innerFold_frames (resolve : Str → Option Str) (key : Str)
    (pairs : List (Str × Option Str)) : ∀ db : Database,
    (pairs.foldl (processUrl resolve key) db).max_parallel_downloads =
      db.max_parallel_downloads ∧
    (pairs.foldl (processUrl resolve key) db).folder_metadata =
      db.folder_metadata ∧
    (∀ c, c ≠ key →
      alookup c (pairs.foldl (processUrl resolve key) db).cats =
        alookup c db.cats) := by
  induction pairs with
  | nil => exact fun db => ⟨rfl, rfl, fun c hc => rfl⟩
  | cons uc rest ih =>
      intro db
      have h1 := vp_processUrl_frames resolve key db uc
      have h2 := ih (processUrl resolve key db uc)
      exact ⟨h2.1.trans h1.1, h2.2.1.trans h1.2.1,
        fun c hc => (h2.2.2 c hc).trans (h1.2.2 c hc)⟩

theorem vp_innerFold_at (resolve : Str → Option Str) (key : Str)
    (pairs : List (Str × Option Str)) : ∀ (db : Database) (items : List Item),
    alookup key db.cats = some items → key ≠ mpdKey →
    alookup key (pairs.foldl (processUrl resolve key) db).cats =
      some (catFold resolve pairs items) := by
  induction pairs with
  | nil => exact fun db items hlk _ => hlk
  | cons uc rest ih =>
      intro db items hlk hm
      have hstep := (vp_processUrl_at resolve key db uc items hlk hm).1
      have hlk1 : alookup key (processUrl resolve key db uc).cats =
          some (catStep resolve uc items) := by
        rw [hstep, vp_alookup_assocSet_self, hlk]
        rfl
      exact ih (processUrl resolve key db uc) (catStep resolve uc items) hlk1 hm

/-!  The whole category loop of `parse_script`, then the parser itself. -/

theorem vp_outerFold_frames (resolve : Str → Option Str) (content : Str)
    (L : List (Str × Str)) : ∀ db : Database,
    (L.foldl (fun db km => (extract_urls_from_array content km.2).foldl
      (processUrl resolve km.1) db) db).max_parallel_downloads =
        db.max_parallel_downloads ∧
    (L.foldl (fun db km => (extract_urls_from_array content km.2).foldl
      (processUrl resolve km.1) db) db).folder_metadata = db.folder_metadata ∧
    (∀ c, c ∉ L.map Prod.fst →
      alookup c (L.foldl (fun db km => (extract_urls_from_array content km.2).foldl
        (processUrl resolve km.1) db) db).cats = alookup c db.cats) := by
  induction L with
  | nil => exact fun db => ⟨rfl, rfl, fun c hc => rfl⟩
  | cons km rest ih =>
      intro db
      have h1 := vp_innerFold_frames resolve km.1
        (extract_urls_from_array content km.2) db
      have h2 := ih ((extract_urls_from_array content km.2).foldl
        (processUrl resolve km.1) db)
      refine ⟨h2.1.trans h1.1, h2.2.1.trans h1.2.1, fun c hc => ?_⟩
      have hc1 : c ≠ km.1 := by
        intro hh
        exact hc (by simp [hh])
      have hc2 : c ∉ rest.map Prod.fst := by
        intro hh
        exact hc (by simp [hh])
      exact (h2.2.2 c hc2).trans (h1.2.2 c hc1)

theorem vp_outerFold_at (resolve : Str → Option Str) (content : Str)
    (L : List (Str × Str)) : ∀ (db : Database) (cat m : Str) (items : List Item),
    (cat, m) ∈ L → (L.map Prod.fst).Nodup → cat ≠ mpdKey →
    alookup cat db.cats = some items →
    alookup cat (L.foldl (fun db km => (extract_urls_from_array content km.2).foldl
      (processUrl resolve km.1) db) db).cats =
      some (catFold resolve (extract_urls_from_array content m) items) := by
  induction L with
  | nil => intro db cat m items hmem; simp at hmem
  | cons km rest ih =>
      intro db cat m items hmem hnd hm hlk
      rcases List.mem_cons.mp hmem with heq | hrest
      · have hk : km.1 = cat := by rw [← heq]
        have hmm : km.2 = m := by rw [← heq]
        subst hk
        subst hmm
        have hstep := vp_innerFold_at resolve km.1
          (extract_urls_from_array content km.2) db items hlk hm
        have hnd2 : km.1 ∉ rest.map Prod.fst ∧ (rest.map Prod.fst).Nodup := by
          rw [List.map_cons] at hnd
          exact List.nodup_cons.mp hnd
        exact (vp_outerFold_frames resolve content rest _).2.2 km.1 hnd2.1 |>.trans
          hstep
      · have hnd2 : km.1 ∉ rest.map Prod.fst ∧ (rest.map Prod.fst).Nodup := by
          rw [List.map_cons] at hnd
          exact List.nodup_cons.mp hnd
        have hk : km.1 ≠ cat := by
          intro hh
          have h1 : km.1 ∈ rest.map Prod.fst := by
            rw [hh]
            exact List.mem_map.mpr ⟨(cat, m), hrest, rfl⟩
          exact hnd2.1 h1
        have hpres := (vp_innerFold_frames resolve km.1
          (extract_urls_from_array content km.2) db).2.2 cat (fun hh => hk hh.symm)
        exact ih _ cat m items hrest hnd2.2 hm (hpres.trans hlk)

theorem vp_clear_lookup (db : Database) (cat : Str) :
    alookup cat (clear_all_selections db).cats =
      (alookup cat db.cats).map (List.map clearItem) := by
  show alookup cat (db.cats.map (fun kv =>
    (kv.1, (fun _ v => List.map clearItem v) kv.1 kv.2))) = _
  rw [vp_alookup_map cat (fun _ v => List.map clearItem v)]

theorem vp_scalar_cats (db : Database) (v : PyVal) :
    (update_max_parallel_downloads db v).2.cats = db.cats ∧
    (update_max_parallel_downloads db v).2.folder_metadata =
      db.folder_metadata := by
  unfold update_max_parallel_downloads
  cases pyToInt v with
  | none => exact ⟨rfl, rfl⟩
  | some n => exact ⟨rfl, rfl⟩

theorem vp_patterns_nodup : (patternsList.map Prod.fst).Nodup := by decide

theorem vp_patterns_keys_ok : ∀ km ∈ patternsList, km.1 ≠ mpdKey := by decide

theorem vp_parse_cats (resolve : Str → Option Str) (content : Str)
    (db : Database) :
    (parse_script resolve content db).cats =
      (patternsList.foldl (fun db km =>
        (extract_urls_from_array content km.2).foldl (processUrl resolve km.1) db)
        (clear_all_selections db)).cats := by
  unfold parse_script
  cases findMaxParallel content with
  | none => rfl
  | some n =>
      exact (vp_scalar_cats _ (PyVal.vint (Int.ofNat n))).1

theorem vp_parse_at (resolve : Str → Option Str) (content : Str) (db : Database)
    (cat m : Str) (items : List Item) (hmem : (cat, m) ∈ patternsList)
    (hlk : alookup cat db.cats = some items) :
    alookup cat (parse_script resolve content db).cats =
      some (catFold resolve (extract_urls_from_array content m)
        (items.map clearItem)) := by
  rw [vp_parse_cats]
  have hm : cat ≠ mpdKey := vp_patterns_keys_ok (cat, m) hmem
  have hclear : alookup cat (clear_all_selections db).cats =
      some (items.map clearItem) := by
    rw [vp_clear_lookup, hlk]
    rfl
  exact vp_outerFold_at resolve content patternsList (clear_all_selections db)
    cat m (items.map clearItem) hmem vp_patterns_nodup hm hclear

theorem vp_parse_notin (resolve : Str → Option Str) (content : Str)
    (db : Database) (cat : Str) (hcat : cat ∉ patternsList.map Prod.fst) :
    alookup cat (parse_script resolve content db).cats =
      (alookup cat db.cats).map (List.map clearItem) := by
  rw [vp_parse_cats]
  rw [(vp_outerFold_frames resolve content patternsList
    (clear_all_selections db)).2.2 cat hcat]
  exact vp_clear_lookup db cat

/-!  Url and checked-state tracking through `catStep` and `catFold`. -/

theorem vp_updFC_getD_unf (u : Str) (b : Bool) (items : List Item) :
    (((updFirstChecked u b items).getD items).map
      (fun i => (i.url, i.name, i.folder))) =
      items.map (fun i => (i.url, i.name, i.folder)) := by
  cases hres : updFirstChecked u b items with
  | none => rfl
  | some items' => exact vp_updFirstChecked_unf u b items items' hres

theorem vp_updFN_getD_unf (u n : Str) (items : List Item) :
    (((updFirstName u n items).getD items).map
      (fun i => (i.url, i.checked, i.folder))) =
      items.map (fun i => (i.url, i.checked, i.folder)) := by
  cases hres : updFirstName u n items with
  | none => rfl
  | some items' => exact vp_updFirstName_unf u n items items' hres

theorem vp_urls_of_triple (items items' : List Item)
    (h : items'.map (fun i => (i.url, i.name, i.folder)) =
      items.map (fun i => (i.url, i.name, i.folder))) :
    items'.map (fun i => i.url) = items.map (fun i => i.url) := by
  have := congrArg (List.map Prod.fst) h
  simpa [List.map_map, Function.comp] using this

theorem vp_urls_of_ctriple (items items' : List Item)
    (h : items'.map (fun i => (i.url, i.checked, i.folder)) =
      items.map (fun i => (i.url, i.checked, i.folder))) :
    items'.map (fun i => i.url) = items.map (fun i => i.url) := by
  have := congrArg (List.map Prod.fst) h
  simpa [List.map_map, Function.comp] using this

theorem vp_ex_url_ext (items items' : List Item) (v : Option Str)
    (tail : List (Option Str))
    (h : items'.map (fun i => i.url) = items.map (fun i => i.url) ++ tail)
    (hex : ∃ i ∈ items, i.url = v) : ∃ i ∈ items', i.url = v := by
  obtain ⟨i, hi, hiu⟩ := hex
  have : v ∈ items'.map (fun i => i.url) := by
    rw [h]
    exact List.mem_append_left tail (List.mem_map.mpr ⟨i, hi, hiu⟩)
  obtain ⟨j, hj, hju⟩ := List.mem_map.mp this
  exact ⟨j, hj, hju⟩

theorem vp_ex_true_of_ctriple (items items' : List Item) (u : Str)
    (h : items'.map (fun i => (i.url, i.checked, i.folder)) =
      items.map (fun i => (i.url, i.checked, i.folder)))
    (hex : ∃ i ∈ items, i.url = some u ∧ i.checked = some true) :
    ∃ i ∈ items', i.url = some u ∧ i.checked = some true := by
  obtain ⟨i, hi, hiu, hic⟩ := hex
  have hmem : (some u, some true, i.folder) ∈
      items'.map (fun i => (i.url, i.checked, i.folder)) := by
    rw [h]
    exact List.mem_map.mpr ⟨i, hi, by rw [hiu, hic]⟩
  obtain ⟨j, hj, hjt⟩ := List.mem_map.mp hmem
  refine ⟨j, hj, ?_, ?_⟩
  · exact congrArg Prod.fst hjt
  · exact congrArg (fun t => t.2.1) hjt

theorem vp_catStep_urls (resolve : Str → Option Str) (uc : Str × Option Str)
    (items : List Item) :
    ∃ tail, (catStep resolve uc items).map (fun i => i.url) =
      items.map (fun i => i.url) ++ tail := by
  unfold catStep
  cases hfind : items.find? (fun i => decide (i.url = some uc.1)) with
  | some ex =>
      dsimp only
      refine ⟨[], ?_⟩
      rw [List.append_nil]
      by_cases hcond : pyTruthyS uc.2 && !(pyTruthyS ex.name)
      · rw [if_pos hcond]
        exact (vp_urls_of_ctriple _ _ (vp_updFN_getD_unf _ _ _)).trans
          (vp_urls_of_triple _ _ (vp_updFC_getD_unf _ _ _))
      · rw [if_neg hcond]
        exact vp_urls_of_triple _ _ (vp_updFC_getD_unf _ _ _)
  | none =>
      dsimp only
      refine ⟨[some uc.1], ?_⟩
      by_cases hcond : pyTruthyS uc.2
      · rw [if_pos hcond]
        refine (vp_urls_of_ctriple _ _ (vp_updFN_getD_unf _ _ _)).trans ?_
        simp
      · rw [if_neg hcond]
        simp

theorem vp_catStep_pres_true (resolve : Str → Option Str) (uc : Str × Option Str)
    (items : List Item) (u : Str)
    (hex : ∃ i ∈ items, i.url = some u ∧ i.checked = some true) :
    ∃ i ∈ catStep resolve uc items, i.url = some u ∧ i.checked = some true := by
  unfold catStep
  cases hfind : items.find? (fun i => decide (i.url = some uc.1)) with
  | some ex =>
      dsimp only
      have hexq : ∃ i ∈ items, i.url = some uc.1 := by
        refine ⟨ex, List.mem_of_find?_eq_some hfind, ?_⟩
        have := List.find?_some hfind
        simpa using this
      have hupds : (updFirstChecked uc.1 true items).isSome = true :=
        (vp_updFirstChecked_isSome uc.1 true items).mpr hexq
      cases hupd : updFirstChecked uc.1 true items with
      | none => rw [hupd] at hupds; simp at hupds
      | some items1 =>
          have h1 : ∃ i ∈ items1, i.url = some u ∧ i.checked = some true :=
            vp_updFirstChecked_pres_true uc.1 u items items1 hupd hex
          by_cases hcond : pyTruthyS uc.2 && !(pyTruthyS ex.name)
          · rw [if_pos hcond]
            refine vp_ex_true_of_ctriple items1 _ u ?_ h1
            simp only [hupd, Option.getD_some]
            exact vp_updFN_getD_unf _ _ _
          · rw [if_neg hcond]
            simpa only [hupd, Option.getD_some] using h1
  | none =>
      dsimp only
      have h1 : ∃ i ∈ items ++
          [{ url := some uc.1, checked := some true, name := resolve uc.1,
             folder := [] } ], i.url = some u ∧ i.checked = some true := by
        obtain ⟨i, hi, hiu, hic⟩ := hex
        exact ⟨i, List.mem_append_left _ hi, hiu, hic⟩
      by_cases hcond : pyTruthyS uc.2
      · rw [if_pos hcond]
        refine vp_ex_true_of_ctriple _ _ u ?_ h1
        exact vp_updFN_getD_unf _ _ _
      · rw [if_neg hcond]
        exact h1

theorem vp_catStep_make_true (resolve : Str → Option Str) (uc : Str × Option Str)
    (items : List Item) (hex : ∃ i ∈ items, i.url = some uc.1) :
    ∃ i ∈ catStep resolve uc items, i.url = some uc.1 ∧ i.checked = some true := by
  unfold catStep
  cases hfind : items.find? (fun i => decide (i.url = some uc.1)) with
  | some ex =>
      dsimp only
      have hupds : (updFirstChecked uc.1 true items).isSome = true :=
        (vp_updFirstChecked_isSome uc.1 true items).mpr hex
      cases hupd : updFirstChecked uc.1 true items with
      | none => rw [hupd] at hupds; simp at hupds
      | some items1 =>
          have h1 := vp_updFirstChecked_mem_true uc.1 items items1 hupd
          by_cases hcond : pyTruthyS uc.2 && !(pyTruthyS ex.name)
          · rw [if_pos hcond]
            refine vp_ex_true_of_ctriple items1 _ uc.1 ?_ h1
            simp only [hupd, Option.getD_some]
            exact vp_updFN_getD_unf _ _ _
          · rw [if_neg hcond]
            simpa only [hupd, Option.getD_some] using h1
  | none =>
      obtain ⟨i, hi, hiu⟩ := hex
      have := List.find?_eq_none.mp hfind i hi
      simp [hiu] at this

theorem vp_catFold_urls (resolve : Str → Option Str)
    (pairs : List (Str × Option Str)) : ∀ items : List Item,
    ∃ tail, (catFold resolve pairs items).map (fun i => i.url) =
      items.map (fun i => i.url) ++ tail := by
  induction pairs with
  | nil => exact fun items => ⟨[], by simp [catFold]⟩
  | cons uc rest ih =>
      intro items
      obtain ⟨t1, h1⟩ := vp_catStep_urls resolve uc items
      obtain ⟨t2, h2⟩ := ih (catStep resolve uc items)
      refine ⟨t1 ++ t2, ?_⟩
      show (catFold resolve rest (catStep resolve uc items)).map _ = _
      rw [h2, h1, List.append_assoc]

theorem vp_catFold_pres_true (resolve : Str → Option Str)
    (pairs : List (Str × Option Str)) : ∀ (items : List Item) (u : Str),
    (∃ i ∈ items, i.url = some u ∧ i.checked = some true) →
    ∃ i ∈ catFold resolve pairs items, i.url = some u ∧ i.checked = some true := by
  induction pairs with
  | nil => exact fun items u hex => hex
  | cons uc rest ih =>
      intro items u hex
      exact ih (catStep resolve uc items) u
        (vp_catStep_pres_true resolve uc items u hex)

theorem vp_catFold_make_true (resolve : Str → Option Str)
    (pairs : List (Str × Option Str)) : ∀ (items : List Item) (u : Str)
    (c : Option Str), (u, c) ∈ pairs → (∃ i ∈ items, i.url = some u) →
    ∃ i ∈ catFold resolve pairs items, i.url = some u ∧ i.checked = some true := by
  induction pairs with
  | nil => intro items u c hmem; simp at hmem
  | cons uc rest ih =>
      intro items u c hmem hex
      rcases List.mem_cons.mp hmem with heq | hrest
      · have hu : uc.1 = u := by rw [← heq]
        subst hu
        exact vp_catFold_pres_true resolve rest (catStep resolve uc items) uc.1
          (vp_catStep_make_true resolve uc items hex)
      · obtain ⟨t1, h1⟩ := vp_catStep_urls resolve uc items
        exact ih (catStep resolve uc items) u c hrest
          (vp_ex_url_ext items _ (some u) t1 h1 hex)

theorem vp_clearItem_urls (items : List Item) :
    (items.map clearItem).map (fun i => i.url) = items.map (fun i => i.url) := by
  induction items with
  | nil => rfl
  | cons i rest ih => simp [clearItem, ih]

/-- C2: parse never deletes - every url present in a category before the
parse is still present afterwards; a url extracted from the text for a
schema category in which it already exists ends up explicitly checked; and
a schema category whose block yields nothing is exactly the old list with
every item set to `checked := false`, nothing deleted. The final conjunct
is the claim's concrete scenario: checkpoint items A (checked) and B
(unchecked), a text naming only A - after the parse A is checked, B is
unchecked and still present. -/
theorem c2_merge_not_replace (resolve : Str → Option Str) (content : Str)
    (db : Database) :
    (∀ (cat u : Str), (∃ i ∈ getAllD db cat, i.url = some u) →
      ∃ i ∈ getAllD (parse_script resolve content db) cat, i.url = some u) ∧
    (∀ (cat m u : Str) (c : Option Str), (cat, m) ∈ patternsList →
      (u, c) ∈ extract_urls_from_array content m →
      (∃ i ∈ getAllD db cat, i.url = some u) →
      ∃ i ∈ getAllD (parse_script resolve content db) cat,
        i.url = some u ∧ i.checked = some true) ∧
    (∀ (cat m : Str) (items : List Item), (cat, m) ∈ patternsList →
      alookup cat db.cats = some items →
      extract_urls_from_array content m = [] →
      getAllD (parse_script resolve content db) cat = items.map clearItem) ∧
    getAllD (parse_script noResolve c2Text c2Db) ckKey =
      [{ url := some "A".data, checked := some true, name := none, folder := [] },
       { url := some "B".data, checked := some false, name := none, folder := [] }] := by
  refine ⟨?_, ?_, ?_, by decide⟩
  · intro cat u hex
    cases hlk : alookup cat db.cats with
    | none => simp [getAllD, hlk] at hex
    | some items =>
        rw [getAllD, hlk] at hex
        by_cases hmemk : cat ∈ patternsList.map Prod.fst
        · obtain ⟨km, hkm, hfst⟩ := List.mem_map.mp hmemk
          have hkm' : (cat, km.2) ∈ patternsList := by
            rw [← hfst]
            exact hkm
          have hat := vp_parse_at resolve content db cat km.2 items hkm' hlk
          rw [getAllD, hat]
          have hstep : ∃ i ∈ items.map clearItem, i.url = some u :=
            vp_ex_url_ext items (items.map clearItem) (some u) []
              (by rw [vp_clearItem_urls, List.append_nil]) hex
          obtain ⟨tail, htail⟩ :=
            vp_catFold_urls resolve (extract_urls_from_array content km.2)
              (items.map clearItem)
          exact vp_ex_url_ext (items.map clearItem) _ (some u) tail htail hstep
        · have hat := vp_parse_notin resolve content db cat hmemk
          rw [getAllD, hat, hlk]
          exact vp_ex_url_ext items (items.map clearItem) (some u) []
            (by rw [vp_clearItem_urls, List.append_nil]) hex
  · intro cat m u c hkm hpair hex
    cases hlk : alookup cat db.cats with
    | none => simp [getAllD, hlk] at hex
    | some items =>
        rw [getAllD, hlk] at hex
        have hat := vp_parse_at resolve content db cat m items hkm hlk
        rw [getAllD, hat]
        have hstep : ∃ i ∈ items.map clearItem, i.url = some u :=
          vp_ex_url_ext items (items.map clearItem) (some u) []
            (by rw [vp_clearItem_urls, List.append_nil]) hex
        exact vp_catFold_make_true resolve (extract_urls_from_array content m)
          (items.map clearItem) u c hpair hstep
  · intro cat m items hkm hlk hempty
    have hat := vp_parse_at resolve content db cat m items hkm hlk
    rw [getAllD, hat, hempty]
    rfl

theorem c2_merge_not_replace_witness :
    (∃ i ∈ getAllD (parse_script noResolve c2Text c2Db) ckKey,
      i.url = some "A".data ∧ i.checked = some true) ∧
    (∃ i ∈ getAllD (parse_script noResolve c2Text c2Db) ckKey,
      i.url = some "B".data) :=
  ⟨(c2_merge_not_replace noResolve c2Text c2Db).2.1 ckKey
      "CHECKPOINT_MODELS=(".data "A".data none (by decide) (by decide) (by decide),
   (c2_merge_not_replace noResolve c2Text c2Db).1 ckKey "B".data (by decide)⟩

/-!  Recursion lemmas for the fuelled `str.replace`. -/

theorem vp_replaceAllF_congr (pat val : Str) :
    ∀ (f1 f2 : Nat) (s : Str), s.length ≤ f1 → s.length ≤ f2 →
    replaceAllF pat val f1 s = replaceAllF pat val f2 s := by
  intro f1
  induction f1 using Nat.strong_induction_on with
  | _ f1 ih =>
      intro f2 s h1 h2
      cases f1 with
      | zero =>
          have hs : s = [] := List.length_eq_zero.mp (Nat.le_zero.mp h1)
          subst hs
          cases f2 <;> rfl
      | succ f1' =>
          cases s with
          | nil => cases f2 <;> rfl
          | cons c rest =>
              cases f2 with
              | zero => simp at h2
              | succ f2' =>
                  by_cases hcond : pat ≠ [] ∧ isPre pat (c :: rest) = true
                  · simp only [replaceAllF, if_pos hcond]
                    congr 1
                    have hp : 0 < pat.length := List.length_pos.mpr hcond.1
                    simp only [List.length_cons] at h1 h2
                    apply ih f1' (Nat.lt_succ_self f1')
                    · simp only [List.length_drop, List.length_cons]
                      omega
                    · simp only [List.length_drop, List.length_cons]
                      omega
                  · simp only [replaceAllF, if_neg hcond]
                    congr 1
                    simp only [List.length_cons] at h1 h2
                    apply ih f1' (Nat.lt_succ_self f1')
                    · omega
                    · omega

theorem vp_replaceAll_cons_no (pat val : Str) (c : Char) (rest : Str)
    (h : ¬(pat ≠ [] ∧ isPre pat (c :: rest) = true)) :
    replaceAll pat val (c :: rest) = c :: replaceAll pat val rest := by
  show replaceAllF pat val (rest.length + 1) (c :: rest) = _
  simp only [replaceAllF, if_neg h]
  rfl

theorem vp_replaceAll_cons_yes (pat val : Str) (s : Str) (hne : pat ≠ [])
    (hpre : isPre pat s = true) :
    replaceAll pat val s = val ++ replaceAll pat val (s.drop pat.length) := by
  cases s with
  | nil =>
      cases pat with
      | nil => exact absurd rfl hne
      | cons p ps => simp [isPre] at hpre
  | cons c rest =>
      show replaceAllF pat val (rest.length + 1) (c :: rest) = _
      have hc : pat ≠ [] ∧ isPre pat (c :: rest) = true := ⟨hne, hpre⟩
      simp only [replaceAllF, if_pos hc]
      congr 1
      apply vp_replaceAllF_congr
      · have hp : 0 < pat.length := List.length_pos.mpr hne
        simp only [List.length_drop, List.length_cons]
        omega
      · exact Nat.le_refl _

theorem vp_isPre_head_ne (a c : Char) (ptail xs : Str) (h : a ≠ c) :
    isPre (a :: ptail) (c :: xs) = false := by
  simp [isPre, h]

theorem vp_isPre_self_append (p s : Str) : isPre p (p ++ s) = true := by
  induction p with
  | nil => rfl
  | cons a ps ih => simp [isPre, ih]

theorem vp_isPre_iff (p s : Str) : isPre p s = true ↔ p <+: s := by
  induction p generalizing s with
  | nil => simp [isPre, List.nil_prefix]
  | cons a ps ih =>
      cases s with
      | nil =>
          simp only [isPre, Bool.false_eq_true, false_iff]
          intro h
          exact absurd (List.eq_nil_of_prefix_nil h) (by simp)
      | cons c rest =>
          simp only [isPre, Bool.and_eq_true, decide_eq_true_eq]
          rw [ih, List.cons_prefix_cons]

/-!  Occurrence lemmas for the replacement loop. -/

theorem vp_replaceAll_no_occ (pat val : Str) :
    ∀ (s : Str), containsSub pat s = false → replaceAll pat val s = s := by
  intro s
  induction s with
  | nil => intro _; rfl
  | cons c rest ih =>
      intro h
      simp only [containsSub, Bool.or_eq_false_iff] at h
      rw [vp_replaceAll_cons_no pat val c rest
        (fun hc => by rw [hc.2] at h; exact Bool.noConfusion h.1), ih h.2]

theorem vp_replaceAll_skip (pat val : Str) :
    ∀ (a b : Str), noStartIn pat a b = true →
    replaceAll pat val (a ++ b) = a ++ replaceAll pat val b := by
  intro a
  induction a with
  | nil => intro b _; rfl
  | cons c rest ih =>
      intro b h
      simp only [noStartIn, Bool.and_eq_true, Bool.not_eq_true',
        List.cons_append] at h
      simp only [List.cons_append]
      rw [vp_replaceAll_cons_no pat val c (rest ++ b)
        (fun hc => by rw [hc.2] at h; exact Bool.noConfusion h.1)]
      rw [ih b h.2]

theorem vp_replaceAll_match (pat val s : Str) (hne : pat ≠ []) :
    replaceAll pat val (pat ++ s) = val ++ replaceAll pat val s := by
  rw [vp_replaceAll_cons_yes pat val (pat ++ s) hne (vp_isPre_self_append pat s)]
  rw [List.drop_left]

theorem vp_noStartIn_of_heads (pc : Char) (pt : Str) :
    ∀ (a b : Str), pc ∉ a → noStartIn (pc :: pt) a b = true := by
  intro a
  induction a with
  | nil => intro b _; rfl
  | cons c rest ih =>
      intro b hna
      have hcne : pc ≠ c := by
        intro he
        exact hna (by rw [he]; exact List.mem_cons_self c rest)
      simp only [noStartIn, Bool.and_eq_true, Bool.not_eq_true']
      exact ⟨vp_isPre_head_ne pc c pt (rest ++ b) hcne,
        ih b (fun hm => hna (List.mem_cons_of_mem c hm))⟩

/-!  The replacement loop on the block-structured template. -/

theorem vp_catBlock_mem (c : Char) (m v : Str) (h : c ∈ catBlock m v) :
    c ∈ m ∨ c ∈ v ∨ c = '\n' ∨ c = ')' := by
  simp only [catBlock, List.mem_append, List.mem_cons, List.not_mem_nil,
    or_false] at h
  tauto

theorem vp_repsMP_zip :
    ∀ (ms ps vs : List Str), ms.length = ps.length →
    repsMP (ms.zip ps) vs = ps.zip vs := by
  intro ms
  induction ms with
  | nil =>
      intro ps vs h
      cases ps with
      | nil => rfl
      | cons p ps' => simp at h
  | cons m ms' ih =>
      intro ps vs h
      cases ps with
      | nil => simp at h
      | cons p ps' =>
          cases vs with
          | nil => rfl
          | cons v vs' =>
              show (p, v) :: repsMP (ms'.zip ps') vs' = (p, v) :: ps'.zip vs'
              rw [ih ps' vs' (by simpa using h)]

theorem vp_blocksMP_flat :
    ∀ (ms ps vs : List Str), ms.length = ps.length →
    blocksMP (ms.zip ps) vs = blocksFlat (ms.zip vs) := by
  intro ms
  induction ms with
  | nil => intro ps vs _; rfl
  | cons m ms' ih =>
      intro ps vs h
      cases ps with
      | nil => simp at h
      | cons p ps' =>
          cases vs with
          | nil => rfl
          | cons v vs' =>
              show catBlock m v ++ blocksMP (ms'.zip ps') vs' =
                catBlock m v ++ blocksFlat (ms'.zip vs')
              rw [ih ps' vs' (by simpa using h)]

theorem vp_blocksMP_no_brace :
    ∀ (mps : List (Str × Str)) (vals : List Str),
    (∀ mp ∈ mps, '{' ∉ mp.1) → (∀ v ∈ vals, '{' ∉ v) →
    '{' ∉ blocksMP mps vals := by
  intro mps
  induction mps with
  | nil => intro vals _ _ h; cases h
  | cons mp rest ih =>
      intro vals hm hv
      cases vals with
      | nil => intro h; cases h
      | cons v vs =>
          intro h
          rcases List.mem_append.mp h with h1 | h2
          · rcases vp_catBlock_mem '{' mp.1 v h1 with hx | hx | hx | hx
            · exact hm mp (List.mem_cons_self mp rest) hx
            · exact hv v (List.mem_cons_self v vs) hx
            · exact absurd hx (by decide)
            · exact absurd hx (by decide)
          · exact ih vs (fun x hx => hm x (List.mem_cons_of_mem mp hx))
              (fun x hx => hv x (List.mem_cons_of_mem v hx)) h2

theorem vp_applyReps_blocks :
    ∀ (mps : List (Str × Str)) (vals : List Str) (t B : Str),
    mps.length = vals.length →
    seqNoOccMP mps t = true →
    (∀ mp ∈ mps, '{' ∉ mp.1 ∧ mp.2.head? = some '{') →
    (∀ v ∈ vals, '{' ∉ v) →
    '{' ∉ B →
    applyReps (B ++ tmplMP mps t) (repsMP mps vals) =
      B ++ blocksMP mps vals ++ t := by
  intro mps
  induction mps with
  | nil =>
      intro vals t B _ _ _ _ _
      simp [applyReps, repsMP, tmplMP, blocksMP]
  | cons mp rest ih =>
      intro vals t B hlen hseq hmp hv hB
      cases vals with
      | nil => simp at hlen
      | cons v vs =>
          obtain ⟨hm1, hph⟩ := hmp mp (List.mem_cons_self mp rest)
          have hv1 : '{' ∉ v := hv v (List.mem_cons_self v vs)
          simp only [seqNoOccMP, Bool.and_eq_true, Bool.not_eq_true'] at hseq
          cases hp2c : mp.2 with
          | nil => rw [hp2c] at hph; cases hph
          | cons c0 pt =>
              have hc0 : c0 = '{' := by
                rw [hp2c] at hph
                injection hph
              subst hc0
              have hB2 : '{' ∉ B ++ mp.1 ++ ['\n'] := by
                intro hx
                rcases List.mem_append.mp hx with hx | hx
                · rcases List.mem_append.mp hx with hx | hx
                  · exact hB hx
                  · exact hm1 hx
                · rcases List.mem_cons.mp hx with hx | hx
                  · exact absurd hx (by decide)
                  · cases hx
              have hshape : B ++ tmplMP (mp :: rest) t =
                  (B ++ mp.1 ++ ['\n']) ++
                    (mp.2 ++ ('\n' :: ')' :: '\n' :: tmplMP rest t)) := by
                simp [tmplMP, List.append_assoc]
              have hstep : replaceAll mp.2 v (B ++ tmplMP (mp :: rest) t) =
                  (B ++ catBlock mp.1 v) ++ tmplMP rest t := by
                rw [hshape]
                rw [vp_replaceAll_skip mp.2 v (B ++ mp.1 ++ ['\n'])
                  (mp.2 ++ ('\n' :: ')' :: '\n' :: tmplMP rest t))
                  (by rw [hp2c]; exact vp_noStartIn_of_heads '{' pt _ _ hB2)]
                rw [vp_replaceAll_match mp.2 v _ (by rw [hp2c]; simp)]
                rw [vp_replaceAll_no_occ mp.2 v _ hseq.1]
                simp [catBlock, List.append_assoc]
              have hBc : '{' ∉ B ++ catBlock mp.1 v := by
                intro hx
                rcases List.mem_append.mp hx with hx | hx
                · exact hB hx
                · rcases vp_catBlock_mem '{' mp.1 v hx with hx | hx | hx | hx
                  · exact hm1 hx
                  · exact hv1 hx
                  · exact absurd hx (by decide)
                  · exact absurd hx (by decide)
              show applyReps (B ++ tmplMP (mp :: rest) t)
                  ((mp.2, v) :: repsMP rest vs) = _
              have hfold : applyReps (B ++ tmplMP (mp :: rest) t)
                  ((mp.2, v) :: repsMP rest vs) =
                  applyReps (replaceAll mp.2 v (B ++ tmplMP (mp :: rest) t))
                    (repsMP rest vs) := rfl
              rw [hfold, hstep,
                ih vs t (B ++ catBlock mp.1 v) (by simpa using hlen) hseq.2
                  (fun x hx => hmp x (List.mem_cons_of_mem mp hx))
                  (fun x hx => hv x (List.mem_cons_of_mem v hx)) hBc]
              simp [blocksMP, List.append_assoc]

/-!  Character sets of the generated values. -/

theorem vp_joinNl_mem (c : Char) :
    ∀ (ls : List Str), c ∈ joinNl ls → c = '\n' ∨ ∃ l ∈ ls, c ∈ l := by
  intro ls
  induction ls with
  | nil => intro h; cases h
  | cons l ls' ih =>
      cases ls' with
      | nil =>
          intro h
          exact Or.inr ⟨l, List.mem_cons_self l [], h⟩
      | cons l2 ls'' =>
          intro h
          have h' : c ∈ l ++ '\n' :: joinNl (l2 :: ls'') := h
          rcases List.mem_append.mp h' with h1 | h2
          · exact Or.inr ⟨l, List.mem_cons_self _ _, h1⟩
          · rcases List.mem_cons.mp h2 with h3 | h4
            · exact Or.inl h3
            · rcases ih h4 with h5 | ⟨l3, hl3, hc3⟩
              · exact Or.inl h5
              · exact Or.inr ⟨l3, List.mem_cons_of_mem l hl3, hc3⟩

theorem vp_renderLine_mem (c : Char) (u : Str) (n : Option Str)
    (h : c ∈ renderLine u n) :
    c ∈ u ∨ (∃ s, n = some s ∧ c ∈ s) ∨ c = ' ' ∨ c = '"' ∨ c = '#' := by
  have hq : ∀ x ∈ ("    \"".data : Str), x = ' ' ∨ x = '"' := by decide
  have hq2 : ∀ x ∈ ("\"".data : Str), x = '"' := by decide
  have hq3 : ∀ x ∈ ("\" # ".data : Str), x = ' ' ∨ x = '"' ∨ x = '#' := by decide
  cases n with
  | none =>
      simp only [renderLine] at h
      rcases List.mem_append.mp h with h1 | h2
      · rcases List.mem_append.mp h1 with h3 | h4
        · rcases hq c h3 with h | h
          · exact Or.inr (Or.inr (Or.inl h))
          · exact Or.inr (Or.inr (Or.inr (Or.inl h)))
        · exact Or.inl h4
      · exact Or.inr (Or.inr (Or.inr (Or.inl (hq2 c h2))))
  | some s =>
      simp only [renderLine] at h
      by_cases hcnd : s ≠ [] ∧ s ≠ u
      · rw [if_pos hcnd] at h
        rcases List.mem_append.mp h with h1 | h2
        · rcases List.mem_append.mp h1 with h3 | h4
          · rcases List.mem_append.mp h3 with h5 | h6
            · rcases hq c h5 with h | h
              · exact Or.inr (Or.inr (Or.inl h))
              · exact Or.inr (Or.inr (Or.inr (Or.inl h)))
            · exact Or.inl h6
          · rcases hq3 c h4 with h | h | h
            · exact Or.inr (Or.inr (Or.inl h))
            · exact Or.inr (Or.inr (Or.inr (Or.inl h)))
            · exact Or.inr (Or.inr (Or.inr (Or.inr h)))
        · exact Or.inr (Or.inl ⟨s, rfl, h2⟩)
      · rw [if_neg hcnd] at h
        rcases List.mem_append.mp h with h1 | h2
        · rcases List.mem_append.mp h1 with h3 | h4
          · rcases hq c h3 with h | h
            · exact Or.inr (Or.inr (Or.inl h))
            · exact Or.inr (Or.inr (Or.inr (Or.inl h)))
          · exact Or.inl h4
        · exact Or.inr (Or.inr (Or.inr (Or.inl (hq2 c h2))))

theorem vp_format_array_mem (c : Char) (items : List Item)
    (hwf : ∀ i ∈ items, itemWF i) (h : c ∈ format_array items) :
    c ≠ '(' ∧ c ≠ ')' ∧ c ≠ '{' := by
  unfold format_array at h
  by_cases h1 : items.isEmpty
  · rw [if_pos h1] at h; cases h
  · rw [if_neg h1] at h
    by_cases h2 : (items.filter (fun i => i.checked.getD false)).isEmpty
    · rw [if_pos h2] at h; cases h
    · rw [if_neg h2] at h
      rcases vp_joinNl_mem c _ h with hnl | ⟨l, hl, hcl⟩
      · subst hnl; exact ⟨by decide, by decide, by decide⟩
      · rcases List.mem_filterMap.mp hl with ⟨i, hi, hline⟩
        have hif : i ∈ items := List.mem_of_mem_filter hi
        have hpt : i.checked.getD false = true := by
          have := List.of_mem_filter hi
          simpa using this
        have hichk : i.checked = some true := by
          cases hc : i.checked with
          | none => rw [hc] at hpt; cases hpt
          | some b =>
              rw [hc] at hpt
              simp only [Option.getD_some] at hpt
              rw [hpt]
        obtain ⟨hurl, hname⟩ := hwf i hif hichk
        by_cases hu : (i.url.getD []).isEmpty
        · rw [if_pos hu] at hline; cases hline
        · rw [if_neg hu] at hline
          injection hline with hl2
          rw [← hl2] at hcl
          rcases vp_renderLine_mem c _ _ hcl with hc1 | ⟨s, hs, hcs⟩ | hc3 | hc4 | hc5
          · obtain ⟨-, -, hp1, hp2, -, hbr⟩ := hurl
            exact ⟨fun he => hp1 (he ▸ hc1), fun he => hp2 (he ▸ hc1),
              fun he => hbr (he ▸ hc1)⟩
          · rw [hs] at hname
            obtain ⟨hp1, hp2, -, hbr, -, -⟩ := hname
            exact ⟨fun he => hp1 (he ▸ hcs), fun he => hp2 (he ▸ hcs),
              fun he => hbr (he ▸ hcs)⟩
          · subst hc3; exact ⟨by decide, by decide, by decide⟩
          · subst hc4; exact ⟨by decide, by decide, by decide⟩
          · subst hc5; exact ⟨by decide, by decide, by decide⟩

theorem vp_natDigitsF_mem (c : Char) :
    ∀ (fuel n : Nat), c ∈ natDigitsF fuel n → isDigitC c = true := by
  intro fuel
  induction fuel with
  | zero => intro n h; cases h
  | succ f ih =>
      intro n h
      cases n with
      | zero => cases h
      | succ m =>
          rcases List.mem_append.mp h with h1 | h2
          · exact ih _ h1
          · have h3 : c = Char.ofNat (48 + (m + 1) % 10) :=
              List.mem_singleton.mp h2
            subst h3
            have hk : (m + 1) % 10 < 10 := Nat.mod_lt _ (by decide)
            generalize hgen : (m + 1) % 10 = r
            rw [hgen] at hk
            interval_cases r <;> decide

theorem vp_intStr_no_brace (n : Int) : '{' ∉ intStr n := by
  intro h
  unfold intStr at h
  by_cases h0 : n = 0
  · rw [if_pos h0] at h
    exact absurd (List.mem_singleton.mp h) (by decide)
  · rw [if_neg h0] at h
    by_cases hneg : n < 0
    · rw [if_pos hneg] at h
      rcases List.mem_cons.mp h with h1 | h2
      · exact absurd h1 (by decide)
      · exact absurd (vp_natDigitsF_mem '{' n.natAbs n.natAbs h2) (by decide)
    · rw [if_neg hneg] at h
      exact absurd (vp_natDigitsF_mem '{' n.natAbs n.natAbs h) (by decide)

/-!  The generated script text. -/

theorem vp_generate_eq (D : Database)
    (hwf : ∀ k ∈ categoryKeys, ∀ i ∈ getAllD D k, itemWF i) :
    generate_script (some templateSh) D = Except.ok (scriptText D) := by
  have hvals : ∀ v ∈ valsOf D, '{' ∉ v := by
    intro v hv hc
    rcases List.mem_map.mp hv with ⟨k, hk, hfk⟩
    exact (vp_format_array_mem '{' (getAllD D k) (hwf k hk) (hfk ▸ hc)).2.2 rfl
  have hT : templateSh = tmplMP mpShape tailT := by decide
  have hlen : mpShape.length = (valsOf D).length := by
    show mpShape.length =
      (categoryKeys.map (fun k => format_array (getAllD D k))).length
    rw [List.length_map]
    decide
  have hmain := vp_applyReps_blocks mpShape (valsOf D) tailT [] hlen
    (by decide) (by decide) hvals (by decide)
  simp only [List.nil_append] at hmain
  have hB0 : '{' ∉ blocksMP mpShape (valsOf D) :=
    vp_blocksMP_no_brace mpShape (valsOf D) (by decide) hvals
  have hsk : noStartIn mpdPh (blocksMP mpShape (valsOf D) ++ mpdMarker)
      (mpdPh ++ ['\n']) = true := by
    have hnm : '{' ∉ blocksMP mpShape (valsOf D) ++ mpdMarker := by
      intro hx
      rcases List.mem_append.mp hx with hx | hx
      · exact hB0 hx
      · exact absurd hx (by decide)
    rw [show mpdPh = '{' :: "max_parallel_downloads\x7d".data from rfl]
    exact vp_noStartIn_of_heads '{' _ _ _ hnm
  have hsplit : blocksMP mpShape (valsOf D) ++ tailT =
      (blocksMP mpShape (valsOf D) ++ mpdMarker) ++ (mpdPh ++ ['\n']) := by
    simp [tailT, List.append_assoc]
  have hscalar : applyReps (blocksMP mpShape (valsOf D) ++ tailT)
      [(mpdPh, intStr D.max_parallel_downloads)] =
      blocksMP mpShape (valsOf D) ++ scriptTail D.max_parallel_downloads := by
    show replaceAll mpdPh (intStr D.max_parallel_downloads)
        (blocksMP mpShape (valsOf D) ++ tailT) = _
    rw [hsplit,
      vp_replaceAll_skip mpdPh (intStr D.max_parallel_downloads) _ _ hsk,
      vp_replaceAll_match mpdPh (intStr D.max_parallel_downloads) ['\n']
        (by decide),
      vp_replaceAll_no_occ mpdPh (intStr D.max_parallel_downloads) ['\n']
        (by decide)]
    simp [scriptTail, List.append_assoc]
  have hreps : replacementsOf D =
      repsMP mpShape (valsOf D) ++ [(mpdPh, intStr D.max_parallel_downloads)] := by
    show placeholders.zip (categoryKeys.map (fun k => format_array (getAllD D k)))
        ++ [(mpdPh, intStr D.max_parallel_downloads)] = _
    rw [show repsMP mpShape (valsOf D) = placeholders.zip (valsOf D) from
      vp_repsMP_zip (patternsList.map Prod.snd) placeholders (valsOf D)
        (by decide)]
    rfl
  show Except.ok (applyReps templateSh (replacementsOf D)) =
    Except.ok (scriptText D)
  rw [hreps, hT,
    show applyReps (tmplMP mpShape tailT)
        (repsMP mpShape (valsOf D) ++ [(mpdPh, intStr D.max_parallel_downloads)]) =
        applyReps (applyReps (tmplMP mpShape tailT) (repsMP mpShape (valsOf D)))
          [(mpdPh, intStr D.max_parallel_downloads)] from
      List.foldl_append _ _ _ _,
    hmain, hscalar,
    show blocksMP mpShape (valsOf D) =
        blocksFlat ((patternsList.map Prod.snd).zip (valsOf D)) from
      vp_blocksMP_flat (patternsList.map Prod.snd) placeholders (valsOf D)
        (by decide)]
  rfl

/-!  Prefix arithmetic for marker-occurrence reasoning. -/

theorem vp_getLast_mem (c : Char) : ∀ (l : Str), l.getLast? = some c → c ∈ l := by
  intro l
  induction l with
  | nil => intro h; cases h
  | cons a l' ih =>
      intro h
      cases l' with
      | nil =>
          have ha : a = c := by simpa [List.getLast?] using h
          exact ha ▸ List.mem_cons_self a []
      | cons b l'' =>
          rw [List.getLast?_cons_cons] at h
          exact List.mem_cons_of_mem a (ih h)

theorem vp_prefix_short (p d y : Str) (hp : p <+: d ++ y)
    (hle : p.length ≤ d.length) : p <+: d :=
  List.prefix_of_prefix_length_le hp (List.prefix_append d y) hle

theorem vp_prefix_long_mem (p d : Str) (c : Char) (y : Str)
    (hp : p <+: d ++ c :: y) (hlt : d.length < p.length) : c ∈ p := by
  have hd : d <+: p :=
    List.prefix_of_prefix_length_le (List.prefix_append d (c :: y)) hp
      (Nat.le_of_lt hlt)
  obtain ⟨p', hp'⟩ := hd
  subst hp'
  have hp2 : p' <+: c :: y := by
    obtain ⟨t, ht⟩ := hp
    rw [List.append_assoc] at ht
    exact ⟨t, List.append_cancel_left ht⟩
  cases p' with
  | nil => simp at hlt
  | cons q p'' =>
      have hq : q = c := (List.cons_prefix_cons.mp hp2).1
      subst hq
      exact List.mem_append_right d (List.mem_cons_self q p'')

theorem vp_prefix_last_mem (m d : Str) (c : Char) (hp : m <+: d)
    (hlt : m.length < d.length) (hl : m.getLast? = some c) : c ∈ d.dropLast := by
  have hdp : m <+: d.dropLast :=
    List.prefix_of_prefix_length_le hp (List.dropLast_prefix d)
      (by rw [List.length_dropLast]; omega)
  exact hdp.sublist.subset (vp_getLast_mem c m hl)

theorem vp_not_pre_headmem (m : Str) (c : Char) (xs : Str) (hne : m ≠ [])
    (hc : c ∉ m) : isPre m (c :: xs) = false := by
  cases m with
  | nil => exact absurd rfl hne
  | cons a m' =>
      have : a ≠ c := fun he => hc (he ▸ List.mem_cons_self a m')
      exact vp_isPre_head_ne a c m' xs this

theorem vp_not_pre_seg (m d cont : Str) (hm : markerShapeB m = true)
    (hneq : m ≠ d) (hdi : '(' ∉ d.dropLast)
    (hcont : cont.head? = some '\n') : isPre m (d ++ cont) = false := by
  simp only [markerShapeB, Bool.and_eq_true, decide_eq_true_eq] at hm
  obtain ⟨⟨⟨⟨hm0, hmL⟩, hmI⟩, hmN⟩, hmP⟩ := hm
  cases hpre : isPre m (d ++ cont) with
  | false => rfl
  | true =>
      exfalso
      have hp : m <+: d ++ cont := (vp_isPre_iff m (d ++ cont)).mp hpre
      rcases Nat.lt_or_ge d.length m.length with hlt | hge
      · cases hcc : cont with
        | nil => rw [hcc] at hcont; cases hcont
        | cons c0 cont' =>
            have hc0 : c0 = '\n' := by
              rw [hcc] at hcont
              injection hcont
            rw [hcc, hc0] at hp
            exact hmN (vp_prefix_long_mem m d '\n' cont' hp hlt)
      · have hmd : m <+: d := vp_prefix_short m d cont hp hge
        by_cases heq2 : m.length = d.length
        · exact hneq (List.IsPrefix.eq_of_length hmd heq2)
        · exact hdi (vp_prefix_last_mem m d '(' hmd
            (Nat.lt_of_le_of_ne hge heq2) hmL)

theorem vp_not_pre_val (m d cont : Str) (hm : markerShapeB m = true)
    (hd : '(' ∉ d) (hcont : cont.head? = some '\n') :
    isPre m (d ++ cont) = false := by
  simp only [markerShapeB, Bool.and_eq_true, decide_eq_true_eq] at hm
  obtain ⟨⟨⟨⟨hm0, hmL⟩, hmI⟩, hmN⟩, hmP⟩ := hm
  cases hpre : isPre m (d ++ cont) with
  | false => rfl
  | true =>
      exfalso
      have hp : m <+: d ++ cont := (vp_isPre_iff m (d ++ cont)).mp hpre
      rcases Nat.lt_or_ge d.length m.length with hlt | hge
      · cases hcc : cont with
        | nil => rw [hcc] at hcont; cases hcont
        | cons c0 cont' =>
            have hc0 : c0 = '\n' := by
              rw [hcc] at hcont
              injection hcont
            rw [hcc, hc0] at hp
            exact hmN (vp_prefix_long_mem m d '\n' cont' hp hlt)
      · have hmd : m <+: d := vp_prefix_short m d cont hp hge
        exact hd (hmd.sublist.subset (vp_getLast_mem '(' m hmL))

/-!  No marker occurrence starts inside a rendered block. -/

theorem vp_noStartIn_append (p : Str) :
    ∀ (x y b : Str),
    noStartIn p (x ++ y) b = (noStartIn p x (y ++ b) && noStartIn p y b) := by
  intro x
  induction x with
  | nil => intro y b; simp [noStartIn]
  | cons c rest ih =>
      intro y b
      rw [List.cons_append]
      show (!(isPre p ((c :: (rest ++ y)) ++ b)) && noStartIn p (rest ++ y) b) =
        ((!(isPre p ((c :: rest) ++ (y ++ b))) && noStartIn p rest (y ++ b)) &&
          noStartIn p y b)
      rw [ih y b, List.cons_append, List.cons_append, List.append_assoc,
        Bool.and_assoc]

theorem vp_noStartIn_marker (m : Str) (hm : markerShapeB m = true) :
    ∀ (mj cont : Str), cont.head? = some '\n' →
    '(' ∉ mj.dropLast → ¬(m <:+ mj) →
    noStartIn m mj cont = true := by
  intro mj
  induction mj with
  | nil => intro cont _ _ _; rfl
  | cons c rest ih =>
      intro cont hcont hI hS
      show (!(isPre m ((c :: rest) ++ cont)) && noStartIn m rest cont) = true
      rw [Bool.and_eq_true]
      constructor
      · rw [vp_not_pre_seg m (c :: rest) cont hm
          (by intro he; exact hS (by rw [he])) hI hcont]
        rfl
      · cases rest with
        | nil => rfl
        | cons b rest' =>
            apply ih cont hcont
            · intro hx
              apply hI
              rw [List.dropLast_cons₂]
              exact List.mem_cons_of_mem c hx
            · intro hx
              exact hS (hx.trans (List.suffix_cons c (b :: rest')))

theorem vp_noStartIn_val (m : Str) (hm : markerShapeB m = true) :
    ∀ (v cont : Str), cont.head? = some '\n' → '(' ∉ v →
    noStartIn m v cont = true := by
  intro v
  induction v with
  | nil => intro cont _ _; rfl
  | cons c rest ih =>
      intro cont hcont hv
      show (!(isPre m ((c :: rest) ++ cont)) && noStartIn m rest cont) = true
      rw [Bool.and_eq_true]
      constructor
      · rw [vp_not_pre_val m (c :: rest) cont hm hv hcont]
        rfl
      · exact ih cont hcont (fun hx => hv (List.mem_cons_of_mem c hx))

theorem vp_noStartIn_block (m mj v rest : Str) (hm : markerShapeB m = true)
    (hmjI : '(' ∉ mj.dropLast) (hsuf : ¬(m <:+ mj)) (hv : '(' ∉ v) :
    noStartIn m (catBlock mj v) rest = true := by
  have hmm := hm
  simp only [markerShapeB, Bool.and_eq_true, decide_eq_true_eq] at hmm
  obtain ⟨⟨⟨⟨hm0, hmL⟩, hmI⟩, hmN⟩, hmP⟩ := hmm
  have hsingle : ∀ (ch : Char) (tl : Str), ch ∉ m → noStartIn m [ch] tl = true := by
    intro ch tl hch
    show (!(isPre m (ch :: tl)) && true) = true
    rw [vp_not_pre_headmem m ch tl hm0 hch]
    rfl
  show noStartIn m (mj ++ (['\n'] ++ (v ++ (['\n'] ++ ([')'] ++ ['\n']))))) rest = true
  rw [vp_noStartIn_append m mj _ rest, vp_noStartIn_append m ['\n'] _ rest,
    vp_noStartIn_append m v _ rest, vp_noStartIn_append m ['\n'] _ rest,
    vp_noStartIn_append m [')'] _ rest]
  simp only [Bool.and_eq_true]
  refine ⟨vp_noStartIn_marker m hm mj _ rfl hmjI hsuf,
    hsingle '\n' _ hmN,
    vp_noStartIn_val m hm v _ rfl hv,
    hsingle '\n' _ hmN,
    hsingle ')' _ hmP,
    hsingle '\n' _ hmN⟩

theorem vp_noStartIn_blocks (m : Str) (hm : markerShapeB m = true) :
    ∀ (pre : List (Str × Str)) (rest : Str),
    (∀ mv ∈ pre, '(' ∉ mv.1.dropLast ∧ ¬(m <:+ mv.1) ∧ '(' ∉ mv.2) →
    noStartIn m (blocksFlat pre) rest = true := by
  intro pre
  induction pre with
  | nil => intro rest _; rfl
  | cons mv pre' ih =>
      intro rest hall
      obtain ⟨h1, h2, h3⟩ := hall mv (List.mem_cons_self mv pre')
      show noStartIn m (catBlock mv.1 mv.2 ++ blocksFlat pre') rest = true
      rw [vp_noStartIn_append m (catBlock mv.1 mv.2) (blocksFlat pre') rest,
        Bool.and_eq_true]
      exact ⟨vp_noStartIn_block m mv.1 mv.2 _ hm h1 h2 h3,
        ih rest (fun x hx => hall x (List.mem_cons_of_mem mv hx))⟩

/-!  Locating a category's block in the script text. -/

theorem vp_findBlock_skip (marker : Str) :
    ∀ (a b : Str), noStartIn marker a b = true →
    findBlock marker (a ++ b) = findBlock marker b := by
  intro a
  induction a with
  | nil => intro b _; rfl
  | cons c rest ih =>
      intro b h
      simp only [noStartIn, Bool.and_eq_true, Bool.not_eq_true',
        List.cons_append] at h
      rw [List.cons_append]
      show (if isPre marker (c :: (rest ++ b)) then
          match takeUntilParen ((c :: (rest ++ b)).drop marker.length) with
          | some blk => some blk
          | none => findBlock marker (rest ++ b)
        else findBlock marker (rest ++ b)) = findBlock marker b
      rw [if_neg (by simp [h.1])]
      exact ih b h.2

theorem vp_takeUntilParen_no :
    ∀ (d rest : Str), ')' ∉ d → takeUntilParen (d ++ ')' :: rest) = some d := by
  intro d
  induction d with
  | nil =>
      intro rest _
      show takeUntilParen (')' :: rest) = some []
      simp [takeUntilParen]
  | cons c d' ih =>
      intro rest hd
      have hc : ¬(c = ')') := fun he => hd (he ▸ List.mem_cons_self c d')
      show takeUntilParen (c :: (d' ++ ')' :: rest)) = some (c :: d')
      simp only [takeUntilParen]
      rw [if_neg hc, ih rest (fun hx => hd (List.mem_cons_of_mem c hx))]
      rfl

theorem vp_findBlock_at (m v rest : Str) (hm : markerShapeB m = true)
    (hv : ')' ∉ v) :
    findBlock m (m ++ '\n' :: (v ++ '\n' :: ')' :: rest)) =
      some ('\n' :: (v ++ ['\n'])) := by
  have hm0 : m ≠ [] := by
    simp only [markerShapeB, Bool.and_eq_true, decide_eq_true_eq] at hm
    exact hm.1.1.1.1
  have htp : takeUntilParen ('\n' :: (v ++ '\n' :: ')' :: rest)) =
      some ('\n' :: (v ++ ['\n'])) := by
    have hX : ('\n' :: (v ++ '\n' :: ')' :: rest) : Str) =
        ('\n' :: (v ++ ['\n'])) ++ ')' :: rest := by
      simp [List.append_assoc]
    rw [hX]
    apply vp_takeUntilParen_no
    intro hx
    rcases List.mem_cons.mp hx with h1 | h2
    · exact absurd h1 (by decide)
    · rcases List.mem_append.mp h2 with h3 | h4
      · exact hv h3
      · exact absurd (List.mem_singleton.mp h4) (by decide)
  cases m with
  | nil => exact absurd rfl hm0
  | cons c m' =>
      have hpre : isPre (c :: m')
          (c :: (m' ++ ('\n' :: (v ++ '\n' :: ')' :: rest)))) = true :=
        vp_isPre_self_append (c :: m') ('\n' :: (v ++ '\n' :: ')' :: rest))
      have hdrop : (c :: (m' ++ ('\n' :: (v ++ '\n' :: ')' :: rest)))).drop
          (c :: m').length = '\n' :: (v ++ '\n' :: ')' :: rest) :=
        List.drop_left (c :: m') ('\n' :: (v ++ '\n' :: ')' :: rest))
      show (if isPre (c :: m') (c :: (m' ++ ('\n' :: (v ++ '\n' :: ')' :: rest))))
          then
          match takeUntilParen ((c :: (m' ++ ('\n' :: (v ++ '\n' :: ')' :: rest)))).drop
              (c :: m').length) with
          | some blk => some blk
          | none => findBlock (c :: m') (m' ++ ('\n' :: (v ++ '\n' :: ')' :: rest)))
        else findBlock (c :: m') (m' ++ ('\n' :: (v ++ '\n' :: ')' :: rest)))) =
        some ('\n' :: (v ++ ['\n']))
      rw [if_pos hpre, hdrop, htp]

theorem vp_markers_shape :
    ∀ p ∈ patternsList.map Prod.snd, markerShapeB p = true := by decide

theorem vp_markers_nonsuffix :
    ∀ p1 ∈ patternsList.map Prod.snd, ∀ p2 ∈ patternsList.map Prod.snd,
    p1 ≠ p2 → ¬(p1 <:+ p2) := by decide

theorem vp_patterns_snd_uniq :
    ∀ kv1 ∈ patternsList, ∀ kv2 ∈ patternsList, kv1.2 = kv2.2 → kv1 = kv2 := by
  decide

theorem vp_findBlock_blocks (m : Str) (hm : markerShapeB m = true) :
    ∀ (mvs : List (Str × Str)) (tail2 v : Str),
    (∀ mv ∈ mvs, markerShapeB mv.1 = true ∧ '(' ∉ mv.2 ∧
      (mv.1 ≠ m → ¬(m <:+ mv.1))) →
    (m, v) ∈ mvs →
    (∀ mv ∈ mvs, mv.1 = m → mv.2 = v) →
    ')' ∉ v →
    findBlock m (blocksFlat mvs ++ tail2) = some ('\n' :: (v ++ ['\n'])) := by
  intro mvs
  induction mvs with
  | nil => intro tail2 v _ hmem _ _; cases hmem
  | cons mv rest ih =>
      intro tail2 v hall hmem huniq hvp
      by_cases hfirst : mv.1 = m
      · have hv2 : mv.2 = v := huniq mv (List.mem_cons_self mv rest) hfirst
        obtain ⟨m1, v1⟩ := mv
        have hf2 : m1 = m := hfirst
        have hv3 : v1 = v := hv2
        subst hf2
        subst hv3
        have hsh : blocksFlat ((m1, v1) :: rest) ++ tail2 =
            m1 ++ '\n' :: (v1 ++ '\n' :: ')' ::
              ('\n' :: (blocksFlat rest ++ tail2))) := by
          simp [blocksFlat, catBlock, List.append_assoc]
        rw [hsh]
        exact vp_findBlock_at m1 v1 _ hm hvp
      · obtain ⟨hsh1, hop, hsuf⟩ := hall mv (List.mem_cons_self mv rest)
        have hI : '(' ∉ mv.1.dropLast := by
          simp only [markerShapeB, Bool.and_eq_true, decide_eq_true_eq] at hsh1
          exact hsh1.1.1.2
        have hsp : blocksFlat (mv :: rest) ++ tail2 =
            catBlock mv.1 mv.2 ++ (blocksFlat rest ++ tail2) := by
          simp [blocksFlat, List.append_assoc]
        rw [hsp, vp_findBlock_skip m (catBlock mv.1 mv.2) _
          (vp_noStartIn_block m mv.1 mv.2 _ hm hI (hsuf hfirst) hop)]
        apply ih tail2 v (fun x hx => hall x (List.mem_cons_of_mem mv hx))
        · rcases List.mem_cons.mp hmem with h1 | h2
          · exact absurd (congrArg Prod.fst h1).symm hfirst
          · exact h2
        · exact fun x hx => huniq x (List.mem_cons_of_mem mv hx)
        · exact hvp

theorem vp_script_blocks (D : Database) :
    blocksFlat ((patternsList.map Prod.snd).zip (valsOf D)) =
      blocksFlat (patternsList.map
        (fun kv => (kv.2, format_array (getAllD D kv.1)))) := by
  congr 1

theorem vp_extract_script (D : Database) (k m : Str)
    (hkm : (k, m) ∈ patternsList)
    (hwf : ∀ k' ∈ categoryKeys, ∀ i ∈ getAllD D k', itemWF i) :
    findBlock m (scriptText D) =
      some ('\n' :: (format_array (getAllD D k) ++ ['\n'])) := by
  have hmS : markerShapeB m = true :=
    vp_markers_shape m (List.mem_map_of_mem Prod.snd hkm)
  have hkc : k ∈ categoryKeys := by
    rw [show categoryKeys = patternsList.map Prod.fst from by decide]
    exact List.mem_map_of_mem Prod.fst hkm
  have hvp : ')' ∉ format_array (getAllD D k) := fun hx =>
    (vp_format_array_mem ')' _ (hwf k hkc) hx).2.1 rfl
  have hall : ∀ mv ∈ patternsList.map
      (fun kv => (kv.2, format_array (getAllD D kv.1))),
      markerShapeB mv.1 = true ∧ '(' ∉ mv.2 ∧ (mv.1 ≠ m → ¬(m <:+ mv.1)) := by
    intro mv hmv
    rcases List.mem_map.mp hmv with ⟨kv, hkv, hkveq⟩
    subst hkveq
    refine ⟨vp_markers_shape kv.2 (List.mem_map_of_mem Prod.snd hkv), ?_, ?_⟩
    · intro hx
      have hk2 : kv.1 ∈ categoryKeys := by
        rw [show categoryKeys = patternsList.map Prod.fst from by decide]
        exact List.mem_map_of_mem Prod.fst hkv
      exact (vp_format_array_mem '(' _ (hwf kv.1 hk2) hx).1 rfl
    · intro hne
      exact vp_markers_nonsuffix m (List.mem_map_of_mem Prod.snd hkm)
        kv.2 (List.mem_map_of_mem Prod.snd hkv) (fun he => hne he.symm)
  have huniq : ∀ mv ∈ patternsList.map
      (fun kv => (kv.2, format_array (getAllD D kv.1))),
      mv.1 = m → mv.2 = format_array (getAllD D k) := by
    intro mv hmv h1
    rcases List.mem_map.mp hmv with ⟨kv, hkv, hkveq⟩
    subst hkveq
    have hkvk : kv = (k, m) := vp_patterns_snd_uniq kv hkv (k, m) hkm h1
    rw [hkvk]
  have hmem : (m, format_array (getAllD D k)) ∈ patternsList.map
      (fun kv => (kv.2, format_array (getAllD D kv.1))) :=
    List.mem_map_of_mem (fun kv => (kv.2, format_array (getAllD D kv.1))) hkm
  show findBlock m (blocksFlat ((patternsList.map Prod.snd).zip (valsOf D)) ++
    scriptTail D.max_parallel_downloads) = _
  rw [vp_script_blocks D]
  exact vp_findBlock_blocks m hmS _ (scriptTail D.max_parallel_downloads) _
    hall hmem huniq hvp

/-!  Stripping and newline-splitting facts. -/

theorem vp_dropWhile_append (p : Char → Bool) :
    ∀ (x y : Str), x.dropWhile p ≠ [] →
    (x ++ y).dropWhile p = x.dropWhile p ++ y := by
  intro x
  induction x with
  | nil => intro y h; exact absurd rfl h
  | cons c rest ih =>
      intro y h
      rw [List.cons_append]
      cases hp : p c with
      | true =>
          simp only [List.dropWhile_cons_of_pos hp]
          simp only [List.dropWhile_cons_of_pos hp] at h
          exact ih y h
      | false =>
          simp only [List.dropWhile_cons_of_neg (by simp [hp] : ¬p c = true)]
          rw [List.cons_append]

theorem vp_lstrip_append (a b : Str) (h : lstripL a ≠ []) :
    lstripL (a ++ b) = lstripL a ++ b :=
  vp_dropWhile_append isSpaceC a b h

theorem vp_getLast_append (a : Str) :
    ∀ (b : Str), b ≠ [] → (a ++ b).getLast? = b.getLast? := by
  induction a with
  | nil => intro b _; rfl
  | cons c a' ih =>
      intro b hb
      rw [List.cons_append]
      cases he : a' ++ b with
      | nil => exact absurd (List.append_eq_nil.mp he).2 hb
      | cons d t =>
          rw [List.getLast?_cons_cons]
          have h3 := ih b hb
          rw [he] at h3
          exact h3

theorem vp_rstrip_append (a b : Str) (h : rstripL b ≠ []) :
    rstripL (a ++ b) = a ++ rstripL b := by
  unfold rstripL at h ⊢
  have hb : b.reverse.dropWhile isSpaceC ≠ [] := by
    intro hx
    rw [hx] at h
    exact h rfl
  rw [List.reverse_append, vp_dropWhile_append isSpaceC b.reverse a.reverse hb,
    List.reverse_append, List.reverse_reverse]

theorem vp_rstrip_noop (l : Str) (c : Char) (hl : l.getLast? = some c)
    (hc : isSpaceC c = false) : rstripL l = l := by
  unfold rstripL
  have hrev : l.reverse.head? = some c := by
    rw [List.head?_reverse]
    exact hl
  cases hr : l.reverse with
  | nil => rw [hr] at hrev; cases hrev
  | cons d t =>
      rw [hr] at hrev
      have hd : d = c := by injection hrev
      subst hd
      have h1 : List.dropWhile isSpaceC (d :: t) = d :: t :=
        List.dropWhile_cons_of_neg (by simp [hc])
      rw [h1, ← hr, List.reverse_reverse]

theorem vp_rstrip_last (n : Str) (hr : rstripL n = n) (hne : n ≠ []) :
    ∃ c, n.getLast? = some c ∧ isSpaceC c = false := by
  cases hrev : n.reverse with
  | nil => exact absurd (by simpa using congrArg List.reverse hrev) hne
  | cons c t =>
      refine ⟨c, ?_, ?_⟩
      · rw [← List.head?_reverse, hrev]
        rfl
      · cases hc : isSpaceC c with
        | false => rfl
        | true =>
            exfalso
            have hlen : (rstripL n).length = n.length := congrArg List.length hr
            unfold rstripL at hlen
            rw [hrev, List.dropWhile_cons_of_pos hc, List.length_reverse] at hlen
            have h1 : (t.dropWhile isSpaceC).length ≤ t.length :=
              (List.dropWhile_sublist isSpaceC).length_le
            have h2 : n.length = t.length + 1 := by
              rw [← List.length_reverse n, hrev]
              rfl
            omega

theorem vp_splitNl_ne_nil : ∀ (s : Str), splitNl s ≠ [] := by
  intro s
  cases s with
  | nil => simp [splitNl]
  | cons c rest =>
      by_cases hc : c = '\n'
      · simp [splitNl, hc]
      · simp only [splitNl, if_neg hc]
        cases splitNl rest with
        | nil => simp
        | cons l ls => simp

theorem vp_splitNl_no_nl : ∀ (l : Str), '\n' ∉ l → splitNl l = [l] := by
  intro l
  induction l with
  | nil => intro _; rfl
  | cons c rest ih =>
      intro h
      have hc : ¬(c = '\n') := fun he => h (he ▸ List.mem_cons_self c rest)
      simp only [splitNl, if_neg hc]
      rw [ih (fun hx => h (List.mem_cons_of_mem c hx))]

theorem vp_splitNl_append_nl :
    ∀ (l y : Str), '\n' ∉ l → splitNl (l ++ '\n' :: y) = l :: splitNl y := by
  intro l
  induction l with
  | nil => intro y _; simp [splitNl]
  | cons c rest ih =>
      intro y h
      have hc : ¬(c = '\n') := fun he => h (he ▸ List.mem_cons_self c rest)
      rw [List.cons_append]
      simp only [splitNl, if_neg hc]
      rw [ih y (fun hx => h (List.mem_cons_of_mem c hx))]

theorem vp_splitNl_joinNl :
    ∀ (ls : List Str), ls ≠ [] → (∀ l ∈ ls, '\n' ∉ l) →
    splitNl (joinNl ls) = ls := by
  intro ls
  induction ls with
  | nil => intro h _; exact absurd rfl h
  | cons l ls' ih =>
      intro _ hall
      cases ls' with
      | nil =>
          show splitNl (joinNl [l]) = [l]
          exact vp_splitNl_no_nl l (hall l (List.mem_cons_self l []))
      | cons l2 ls'' =>
          show splitNl (l ++ '\n' :: joinNl (l2 :: ls'')) = l :: l2 :: ls''
          rw [vp_splitNl_append_nl l _ (hall l (List.mem_cons_self l _)),
            ih (by simp) (fun x hx => hall x (List.mem_cons_of_mem l hx))]

/-!  Per-line parsing of the generator's output. -/

theorem vp_lstrip_cons_ws (c : Char) (s : Str) (h : isSpaceC c = true) :
    lstripL (c :: s) = lstripL s :=
  List.dropWhile_cons_of_pos h

theorem vp_parseLine0_ws_cons (c : Char) (l : Str) (h : isSpaceC c = true) :
    parseLine0 (c :: l) = parseLine0 l := by
  unfold parseLine0 stripL
  rw [vp_lstrip_cons_ws c l h]

theorem vp_parse_lstrip :
    ∀ (s : Str), (splitNl (lstripL s)).filterMap parseLine0 =
      (splitNl s).filterMap parseLine0 := by
  intro s
  induction s with
  | nil => rfl
  | cons c rest ih =>
      cases hws : isSpaceC c with
      | false =>
          rw [show lstripL (c :: rest) = c :: rest from
            List.dropWhile_cons_of_neg (by simp [hws])]
      | true =>
          rw [vp_lstrip_cons_ws c rest hws]
          by_cases hc : c = '\n'
          · subst hc
            rw [ih, show splitNl ('\n' :: rest) = [] :: splitNl rest from by
              simp [splitNl]]
            rw [List.filterMap_cons]
            simp [show parseLine0 ([] : Str) = none from rfl]
          · rw [ih]
            cases hsp : splitNl rest with
            | nil => exact absurd hsp (vp_splitNl_ne_nil rest)
            | cons l ls =>
                rw [show splitNl (c :: rest) = (c :: l) :: ls from by
                  simp only [splitNl, if_neg hc, hsp]]
                rw [List.filterMap_cons, List.filterMap_cons,
                  vp_parseLine0_ws_cons c l hws]

theorem vp_takeNotQuote_no :
    ∀ (u r : Str), '"' ∉ u → takeNotQuote (u ++ '"' :: r) = u := by
  intro u
  induction u with
  | nil =>
      intro r _
      show takeNotQuote ('"' :: r) = []
      simp [takeNotQuote]
  | cons c u' ih =>
      intro r hu
      have hc : ¬(c = '"') := fun he => hu (he ▸ List.mem_cons_self c u')
      show takeNotQuote (c :: (u' ++ '"' :: r)) = c :: u'
      simp only [takeNotQuote]
      rw [if_neg hc, ih r (fun hx => hu (List.mem_cons_of_mem c hx))]

theorem vp_parseQuoted_at (u rest2 : Str) (hq : '"' ∉ u) (hne : u ≠ []) :
    parseQuoted ('"' :: (u ++ '"' :: rest2)) = some (u, commentOf rest2) := by
  simp only [parseQuoted]
  rw [vp_takeNotQuote_no u rest2 hq, List.drop_left]
  show (if u = [] then none else some (u, commentOf rest2)) =
    some (u, commentOf rest2)
  rw [if_neg hne]

theorem vp_parseLine_plain (u : Str) (hu : urlWF u) :
    parseLine0 ("    \"".data ++ u ++ "\"".data) = some (u, none) := by
  obtain ⟨hne, hq, -, -, -, -⟩ := hu
  have hassoc : ("    \"".data ++ u ++ "\"".data : Str) =
      "    \"".data ++ (u ++ ['"']) := by simp [List.append_assoc]
  have hl : lstripL ("    \"".data ++ (u ++ ['"'])) = '"' :: (u ++ ['"']) := by
    rw [vp_lstrip_append "    \"".data (u ++ ['"']) (by decide)]
    rfl
  have hr : rstripL ('"' :: (u ++ ['"'])) = '"' :: (u ++ ['"']) := by
    apply vp_rstrip_noop _ '"'
    · show (('"' :: u) ++ ['"']).getLast? = some '"'
      rw [vp_getLast_append ('"' :: u) ['"'] (by simp)]
      rfl
    · decide
  unfold parseLine0 stripL
  rw [hassoc, hl, hr]
  rw [show (u ++ ['"'] : Str) = u ++ '"' :: [] from rfl]
  rw [vp_parseQuoted_at u [] hq hne]
  rfl

theorem vp_parseLine_render (i : Item) (hu : urlWF (i.url.getD []))
    (hn : nameWF i.name) :
    parseLine0 (renderLine (i.url.getD []) i.name) = some (emittedPair i) := by
  have hu2 := hu
  obtain ⟨hne, hq, -, -, -, -⟩ := hu2
  cases hni : i.name with
  | none =>
      have hcout : commentOut i = none := by
        unfold commentOut
        rw [hni]
      show parseLine0 ("    \"".data ++ i.url.getD [] ++ "\"".data) = _
      rw [vp_parseLine_plain (i.url.getD []) hu]
      show some (i.url.getD [], none) = some (emittedPair i)
      rw [show emittedPair i = (i.url.getD [], none) from by
        unfold emittedPair
        rw [hcout]]
  | some s =>
      rw [hni] at hn
      obtain ⟨-, -, -, -, hsl, hsr⟩ := hn
      have hstrip : stripL s = s := by
        unfold stripL
        rw [hsl, hsr]
      by_cases hcnd : s ≠ [] ∧ s ≠ i.url.getD []
      · have hcout : commentOut i = some s := by
          unfold commentOut
          rw [hni]
          show (if s ≠ [] ∧ s ≠ i.url.getD [] then
              (if stripL s = [] then none else some (stripL s))
            else none) = some s
          rw [if_pos hcnd, if_neg (show ¬(stripL s = []) from by
            rw [hstrip]; exact hcnd.1), hstrip]
        rw [show renderLine (i.url.getD []) (some s) =
            "    \"".data ++ i.url.getD [] ++ "\" # ".data ++ s from by
          show (if s ≠ [] ∧ s ≠ i.url.getD [] then
              "    \"".data ++ i.url.getD [] ++ "\" # ".data ++ s
            else "    \"".data ++ i.url.getD [] ++ "\"".data) = _
          rw [if_pos hcnd]]
        have hassoc : ("    \"".data ++ i.url.getD [] ++ "\" # ".data ++ s : Str) =
            "    \"".data ++
              (i.url.getD [] ++ ('"' :: (' ' :: '#' :: ' ' :: s))) := by
          simp [List.append_assoc]
        have hl2 : lstripL ("    \"".data ++
            (i.url.getD [] ++ ('"' :: (' ' :: '#' :: ' ' :: s)))) =
            '"' :: (i.url.getD [] ++ ('"' :: (' ' :: '#' :: ' ' :: s))) := by
          rw [vp_lstrip_append "    \"".data _ (by decide)]
          rfl
        obtain ⟨cl, hcl, hclw⟩ := vp_rstrip_last s hsr hcnd.1
        have hr2 : rstripL ('"' ::
            (i.url.getD [] ++ ('"' :: (' ' :: '#' :: ' ' :: s)))) =
            '"' :: (i.url.getD [] ++ ('"' :: (' ' :: '#' :: ' ' :: s))) := by
          apply vp_rstrip_noop _ cl
          · show (('"' :: i.url.getD []) ++
              ('"' :: ' ' :: '#' :: ' ' :: s)).getLast? = some cl
            rw [vp_getLast_append ('"' :: i.url.getD []) _ (by simp)]
            show (('"' :: ' ' :: '#' :: [' ']) ++ s).getLast? = some cl
            rw [vp_getLast_append _ s hcnd.1]
            exact hcl
          · exact hclw
        have hco : commentOf (' ' :: '#' :: ' ' :: s) = some s := by
          unfold commentOf
          rw [show lstripL (' ' :: '#' :: ' ' :: s) = '#' :: ' ' :: s from by
            rw [vp_lstrip_cons_ws ' ' _ (by decide)]
            exact List.dropWhile_cons_of_neg (by decide)]
          have hg : lstripL (' ' :: s) = s := by
            rw [vp_lstrip_cons_ws ' ' s (by decide), hsl]
          show (if lstripL (' ' :: s) = [] then none
              else some (stripL (lstripL (' ' :: s)))) = some s
          rw [hg, if_neg hcnd.1, hstrip]
        unfold parseLine0 stripL
        rw [hassoc, hl2, hr2,
          vp_parseQuoted_at (i.url.getD []) (' ' :: '#' :: ' ' :: s) hq hne,
          hco]
        show some (i.url.getD [], some s) = some (emittedPair i)
        rw [show emittedPair i = (i.url.getD [], some s) from by
          unfold emittedPair
          rw [hcout]]
      · have hcout : commentOut i = none := by
          unfold commentOut
          rw [hni]
          show (if s ≠ [] ∧ s ≠ i.url.getD [] then
              (if stripL s = [] then none else some (stripL s))
            else none) = none
          rw [if_neg hcnd]
        rw [show renderLine (i.url.getD []) (some s) =
            "    \"".data ++ i.url.getD [] ++ "\"".data from by
          show (if s ≠ [] ∧ s ≠ i.url.getD [] then
              "    \"".data ++ i.url.getD [] ++ "\" # ".data ++ s
            else "    \"".data ++ i.url.getD [] ++ "\"".data) = _
          rw [if_neg hcnd]]
        rw [vp_parseLine_plain (i.url.getD []) hu]
        show some (i.url.getD [], none) = some (emittedPair i)
        rw [show emittedPair i = (i.url.getD [], none) from by
          unfold emittedPair
          rw [hcout]]

/-!  The whole rendered block survives the parser's strip. -/

theorem vp_rstrip_append_ws (x : Str) (c : Char) (h : isSpaceC c = true) :
    rstripL (x ++ [c]) = rstripL x := by
  unfold rstripL
  rw [List.reverse_append]
  show ((c :: x.reverse).dropWhile isSpaceC).reverse = _
  rw [List.dropWhile_cons_of_pos h]

theorem vp_joinNl_ne_nil (l : Str) (ls : List Str) (h : l ≠ []) :
    joinNl (l :: ls) ≠ [] := by
  cases ls with
  | nil => exact h
  | cons l2 ls' =>
      show l ++ '\n' :: joinNl (l2 :: ls') ≠ []
      simp

theorem vp_joinNl_mem_left (x : Char) (l : Str) (ls : List Str) (h : x ∈ l) :
    x ∈ joinNl (l :: ls) := by
  cases ls with
  | nil => exact h
  | cons l2 ls' =>
      show x ∈ l ++ '\n' :: joinNl (l2 :: ls')
      exact List.mem_append_left _ h

theorem vp_lstrip_ne_of_mem (c : Char) :
    ∀ (l : Str), c ∈ l → isSpaceC c = false → lstripL l ≠ [] := by
  intro l
  induction l with
  | nil => intro h _; cases h
  | cons c0 rest ih =>
      intro h hns
      cases hws : isSpaceC c0 with
      | true =>
          rw [vp_lstrip_cons_ws c0 rest hws]
          rcases List.mem_cons.mp h with h1 | h2
          · rw [h1] at hns
            rw [hns] at hws
            cases hws
          · exact ih h2 hns
      | false =>
          rw [show lstripL (c0 :: rest) = c0 :: rest from
            List.dropWhile_cons_of_neg (by simp [hws])]
          simp

theorem vp_getLast_lstrip (v : Str) (h : lstripL v ≠ []) :
    (lstripL v).getLast? = v.getLast? := by
  have hsplit : v.takeWhile isSpaceC ++ v.dropWhile isSpaceC = v :=
    List.takeWhile_append_dropWhile isSpaceC v
  calc (lstripL v).getLast?
      = (v.takeWhile isSpaceC ++ lstripL v).getLast? :=
        (vp_getLast_append (v.takeWhile isSpaceC) (lstripL v) h).symm
    _ = v.getLast? := by
        rw [show v.takeWhile isSpaceC ++ lstripL v = v from hsplit]

theorem vp_filterMap_all_some {α β : Type} (f : α → Option β) (g : α → β) :
    ∀ (l : List α), (∀ x ∈ l, f x = some (g x)) → l.filterMap f = l.map g := by
  intro l
  induction l with
  | nil => intro _; rfl
  | cons a l' ih =>
      intro h
      rw [List.filterMap_cons, h a (List.mem_cons_self a l'),
        ih (fun x hx => h x (List.mem_cons_of_mem a hx)), List.map_cons]

theorem vp_renderLine_facts (i : Item) (hu : urlWF (i.url.getD []))
    (hn : nameWF i.name) :
    rstripL (renderLine (i.url.getD []) i.name) =
      renderLine (i.url.getD []) i.name ∧
    renderLine (i.url.getD []) i.name ≠ [] ∧
    '\n' ∉ renderLine (i.url.getD []) i.name ∧
    '"' ∈ renderLine (i.url.getD []) i.name := by
  have hu2 := hu
  obtain ⟨hne, -, -, -, hnl, -⟩ := hu2
  have hmemq : '"' ∈ renderLine (i.url.getD []) i.name := by
    cases hni : i.name with
    | none =>
        show '"' ∈ "    \"".data ++ i.url.getD [] ++ "\"".data
        exact List.mem_append_left _ (List.mem_append_left _ (by decide))
    | some s =>
        by_cases hcnd : s ≠ [] ∧ s ≠ i.url.getD []
        · show '"' ∈ (if s ≠ [] ∧ s ≠ i.url.getD [] then
              "    \"".data ++ i.url.getD [] ++ "\" # ".data ++ s
            else "    \"".data ++ i.url.getD [] ++ "\"".data)
          rw [if_pos hcnd]
          exact List.mem_append_left _ (List.mem_append_left _
            (List.mem_append_left _ (by decide)))
        · show '"' ∈ (if s ≠ [] ∧ s ≠ i.url.getD [] then
              "    \"".data ++ i.url.getD [] ++ "\" # ".data ++ s
            else "    \"".data ++ i.url.getD [] ++ "\"".data)
          rw [if_neg hcnd]
          exact List.mem_append_left _ (List.mem_append_left _ (by decide))
  have hnonl : '\n' ∉ renderLine (i.url.getD []) i.name := by
    intro hx
    rcases vp_renderLine_mem '\n' (i.url.getD []) i.name hx with
      h1 | ⟨s, hs, hcs⟩ | h3 | h4 | h5
    · exact hnl h1
    · rw [hs] at hn
      exact hn.2.2.1 hcs
    · exact absurd h3 (by decide)
    · exact absurd h4 (by decide)
    · exact absurd h5 (by decide)
  refine ⟨?_, ?_, hnonl, hmemq⟩
  · cases hni : i.name with
    | none =>
        show rstripL ("    \"".data ++ i.url.getD [] ++ "\"".data) = _
        apply vp_rstrip_noop _ '"'
        · rw [vp_getLast_append _ "\"".data (by decide)]
          rfl
        · decide
    | some s =>
        rw [hni] at hn
        by_cases hcnd : s ≠ [] ∧ s ≠ i.url.getD []
        · rw [show renderLine (i.url.getD []) (some s) =
              "    \"".data ++ i.url.getD [] ++ "\" # ".data ++ s from by
            show (if s ≠ [] ∧ s ≠ i.url.getD [] then
                "    \"".data ++ i.url.getD [] ++ "\" # ".data ++ s
              else "    \"".data ++ i.url.getD [] ++ "\"".data) = _
            rw [if_pos hcnd]]
          obtain ⟨cl, hcl, hclw⟩ := vp_rstrip_last s hn.2.2.2.2.2 hcnd.1
          apply vp_rstrip_noop _ cl
          · rw [vp_getLast_append _ s hcnd.1]
            exact hcl
          · exact hclw
        · rw [show renderLine (i.url.getD []) (some s) =
              "    \"".data ++ i.url.getD [] ++ "\"".data from by
            show (if s ≠ [] ∧ s ≠ i.url.getD [] then
                "    \"".data ++ i.url.getD [] ++ "\" # ".data ++ s
              else "    \"".data ++ i.url.getD [] ++ "\"".data) = _
            rw [if_neg hcnd]]
          apply vp_rstrip_noop _ '"'
          · rw [vp_getLast_append _ "\"".data (by decide)]
            rfl
          · decide
  · intro hx
    rw [hx] at hmemq
    cases hmemq

theorem vp_rstrip_joinNl :
    ∀ (ls : List Str), (∀ l ∈ ls, rstripL l = l ∧ l ≠ []) →
    rstripL (joinNl ls) = joinNl ls := by
  intro ls
  induction ls with
  | nil => intro _; rfl
  | cons l ls' ih =>
      intro hall
      cases ls' with
      | nil => exact (hall l (List.mem_cons_self l [])).1
      | cons l2 ls'' =>
          show rstripL (l ++ '\n' :: joinNl (l2 :: ls'')) =
            l ++ '\n' :: joinNl (l2 :: ls'')
          have hrec : rstripL (joinNl (l2 :: ls'')) = joinNl (l2 :: ls'') :=
            ih (fun x hx => hall x (List.mem_cons_of_mem l hx))
          have hjne : joinNl (l2 :: ls'') ≠ [] :=
            vp_joinNl_ne_nil l2 ls''
              (hall l2 (List.mem_cons_of_mem l (List.mem_cons_self l2 ls''))).2
          have hb : rstripL ('\n' :: joinNl (l2 :: ls'')) =
              '\n' :: joinNl (l2 :: ls'') := by
            show rstripL (['\n'] ++ joinNl (l2 :: ls'')) = _
            rw [vp_rstrip_append ['\n'] (joinNl (l2 :: ls'')) (by rw [hrec]; exact hjne),
              hrec]
            rfl
          have hbne : rstripL ('\n' :: joinNl (l2 :: ls'')) ≠ [] := by
            rw [hb]
            simp
          rw [vp_rstrip_append l ('\n' :: joinNl (l2 :: ls'')) hbne, hb]

theorem vp_format_array_nil (items : List Item) (h : checkedOf items = []) :
    format_array items = [] := by
  unfold checkedOf at h
  unfold format_array
  by_cases h1 : items.isEmpty
  · rw [if_pos h1]
  · rw [if_neg h1, if_pos (by rw [h]; rfl)]

theorem vp_format_array_wf (items : List Item)
    (hwf : ∀ i ∈ items, itemWF i) (hne : checkedOf items ≠ []) :
    format_array items = joinNl ((checkedOf items).map
      (fun i => renderLine (i.url.getD []) i.name)) := by
  have hitems : ¬items.isEmpty := by
    intro hx
    apply hne
    unfold checkedOf
    rw [List.isEmpty_iff.mp hx]
    rfl
  unfold format_array
  rw [if_neg hitems, if_neg (by
    intro hx
    exact hne (by unfold checkedOf; exact List.isEmpty_iff.mp hx))]
  congr 1
  apply vp_filterMap_all_some
  intro i hi
  have hit : i ∈ items := List.mem_of_mem_filter hi
  have hchk : i.checked = some true := by
    have := List.of_mem_filter hi
    cases hc : i.checked with
    | none => rw [hc] at this; cases this
    | some b =>
        rw [hc] at this
        simp only [Option.getD_some] at this
        rw [show b = true from this]
  obtain ⟨hurl, -⟩ := hwf i hit hchk
  rw [if_neg (by simp [List.isEmpty_iff]; exact hurl.1)]

theorem vp_extract_eq (D : Database) (k m : Str)
    (hkm : (k, m) ∈ patternsList)
    (hwf : ∀ k' ∈ categoryKeys, ∀ i ∈ getAllD D k', itemWF i) :
    extract_urls_from_array (scriptText D) m =
      (checkedOf (getAllD D k)).map emittedPair := by
  have hkc : k ∈ categoryKeys := by
    rw [show categoryKeys = patternsList.map Prod.fst from by decide]
    exact List.mem_map_of_mem Prod.fst hkm
  have hwfk := hwf k hkc
  have hmemwf : ∀ i ∈ checkedOf (getAllD D k),
      urlWF (i.url.getD []) ∧ nameWF i.name := by
    intro i hi
    have hit : i ∈ getAllD D k := List.mem_of_mem_filter hi
    have hchk : i.checked = some true := by
      have := List.of_mem_filter hi
      cases hc2 : i.checked with
      | none => rw [hc2] at this; cases this
      | some b =>
          rw [hc2] at this
          simp only [Option.getD_some] at this
          rw [show b = true from this]
    exact hwfk i hit hchk
  unfold extract_urls_from_array
  rw [vp_extract_script D k m hkm hwf]
  show (splitNl (stripL ('\n' :: (format_array (getAllD D k) ++ ['\n'])))).filterMap
      parseLine0 = (checkedOf (getAllD D k)).map emittedPair
  cases hcs : checkedOf (getAllD D k) with
  | nil =>
      rw [vp_format_array_nil _ hcs]
      rfl
  | cons c0 cs =>
      have hlines : ∀ l ∈ (checkedOf (getAllD D k)).map
          (fun i => renderLine (i.url.getD []) i.name),
          rstripL l = l ∧ l ≠ [] ∧ '\n' ∉ l ∧ '"' ∈ l := by
        intro l hl
        rcases List.mem_map.mp hl with ⟨i, hi, hieq⟩
        subst hieq
        obtain ⟨hurl, hname⟩ := hmemwf i hi
        exact vp_renderLine_facts i hurl hname
      have hfa : format_array (getAllD D k) =
          joinNl ((checkedOf (getAllD D k)).map
            (fun i => renderLine (i.url.getD []) i.name)) :=
        vp_format_array_wf _ hwfk (by rw [hcs]; simp)
      have hlcons : (checkedOf (getAllD D k)).map
          (fun i => renderLine (i.url.getD []) i.name) =
          renderLine (c0.url.getD []) c0.name ::
            cs.map (fun i => renderLine (i.url.getD []) i.name) := by
        rw [hcs, List.map_cons]
      have hq : '"' ∈ joinNl ((checkedOf (getAllD D k)).map
          (fun i => renderLine (i.url.getD []) i.name)) := by
        rw [hlcons]
        apply vp_joinNl_mem_left
        have := hlines (renderLine (c0.url.getD []) c0.name)
          (by rw [hlcons]; exact List.mem_cons_self _ _)
        exact this.2.2.2
      have hlne : lstripL (joinNl ((checkedOf (getAllD D k)).map
          (fun i => renderLine (i.url.getD []) i.name))) ≠ [] :=
        vp_lstrip_ne_of_mem '"' _ hq (by decide)
      have hVr : rstripL (joinNl ((checkedOf (getAllD D k)).map
          (fun i => renderLine (i.url.getD []) i.name))) =
          joinNl ((checkedOf (getAllD D k)).map
            (fun i => renderLine (i.url.getD []) i.name)) :=
        vp_rstrip_joinNl _ (fun l hl => ⟨(hlines l hl).1, (hlines l hl).2.1⟩)
      have hVne : joinNl ((checkedOf (getAllD D k)).map
          (fun i => renderLine (i.url.getD []) i.name)) ≠ [] := by
        intro hx
        rw [hx] at hq
        cases hq
      obtain ⟨cl, hcl, hclw⟩ := vp_rstrip_last _ hVr hVne
      have hstrip : stripL ('\n' :: (joinNl ((checkedOf (getAllD D k)).map
          (fun i => renderLine (i.url.getD []) i.name)) ++ ['\n'])) =
          lstripL (joinNl ((checkedOf (getAllD D k)).map
            (fun i => renderLine (i.url.getD []) i.name))) := by
        unfold stripL
        rw [vp_lstrip_cons_ws '\n' _ (by decide),
          vp_lstrip_append _ ['\n'] hlne,
          vp_rstrip_append_ws _ '\n' (by decide)]
        apply vp_rstrip_noop _ cl
        · rw [vp_getLast_lstrip _ hlne]
          exact hcl
        · exact hclw
      rw [hfa, hstrip, vp_parse_lstrip,
        vp_splitNl_joinNl _ (by rw [hlcons]; simp)
          (fun l hl => (hlines l hl).2.2.1),
        List.filterMap_map]
      rw [vp_filterMap_all_some _ emittedPair _ (by
        intro i hi
        obtain ⟨hurl, hname⟩ := hmemwf i hi
        exact vp_parseLine_render i hurl hname)]
      rw [hcs]

/-!  The per-category action of the parse fold on its own block's pairs. -/

theorem vp_checkedOf_mem (items : List Item) (c : Item)
    (h : c ∈ checkedOf items) : c ∈ items ∧ c.checked = some true := by
  refine ⟨List.mem_of_mem_filter h, ?_⟩
  have := List.of_mem_filter h
  cases hc : c.checked with
  | none => rw [hc] at this; cases this
  | some b =>
      rw [hc] at this
      simp only [Option.getD_some] at this
      rw [show b = true from this]

theorem vp_find_map_url (u : Str) (t : Item → Bool) :
    ∀ (items : List Item), (items.map (fun i => i.url)).Nodup →
    ∀ i0 ∈ items, i0.url = some u →
    (items.map (fun i => { i with checked := some (t i) })).find?
      (fun x => decide (x.url = some u)) =
      some { i0 with checked := some (t i0) } := by
  intro items
  induction items with
  | nil => intro _ i0 h; cases h
  | cons a rest ih =>
      intro hnd i0 hi0 hu0
      rw [List.map_cons]
      by_cases ha : a.url = some u
      · rw [List.find?_cons_of_pos _ (by
          show decide (({ a with checked := some (t a) } : Item).url = some u) = true
          simp [ha])]
        have hia : i0 = a := by
          rcases List.mem_cons.mp hi0 with h1 | h2
          · exact h1
          · exfalso
            have hmem : a.url ∈ rest.map (fun i => i.url) := by
              rw [ha, ← hu0]
              exact List.mem_map_of_mem _ h2
            exact (List.nodup_cons.mp hnd).1 hmem
        rw [hia]
      · rw [List.find?_cons_of_neg _ (by
          show ¬(decide (({ a with checked := some (t a) } : Item).url = some u) = true)
          simp [ha])]
        have hir : i0 ∈ rest := by
          rcases List.mem_cons.mp hi0 with h1 | h2
          · exfalso
            rw [h1] at hu0
            exact ha hu0
          · exact h2
        exact ih (List.nodup_cons.mp hnd).2 i0 hir hu0

theorem vp_updFC_map (u : Str) (t : Item → Bool) :
    ∀ (items : List Item), (items.map (fun i => i.url)).Nodup →
    ∀ i0 ∈ items, i0.url = some u →
    updFirstChecked u true
      (items.map (fun i => { i with checked := some (t i) })) =
      some (items.map (fun i =>
        { i with checked := some (t i || decide (i.url = some u)) })) := by
  intro items
  induction items with
  | nil => intro _ i0 h; cases h
  | cons a rest ih =>
      intro hnd i0 hi0 hu0
      rw [List.map_cons, List.map_cons]
      simp only [updFirstChecked]
      by_cases ha : a.url = some u
      · rw [if_pos (show ({ a with checked := some (t a) } : Item).url = some u
          from ha)]
        have htail : rest.map (fun i => { i with checked := some (t i) }) =
            rest.map (fun i =>
              { i with checked := some (t i || decide (i.url = some u)) }) := by
          apply List.map_congr_left
          intro j hj
          have hju : ¬(j.url = some u) := by
            intro he
            have hmem : a.url ∈ rest.map (fun i => i.url) := by
              rw [ha, ← he]
              exact List.mem_map_of_mem _ hj
            exact (List.nodup_cons.mp hnd).1 hmem
          rw [show decide (j.url = some u) = false from by simp [hju],
            Bool.or_false]
        rw [htail, show (t a || decide (a.url = some u)) = true from by
          simp [ha]]
      · rw [if_neg (show ¬(({ a with checked := some (t a) } : Item).url = some u)
          from ha)]
        have hir : i0 ∈ rest := by
          rcases List.mem_cons.mp hi0 with h1 | h2
          · exfalso
            rw [h1] at hu0
            exact ha hu0
          · exact h2
        rw [ih (List.nodup_cons.mp hnd).2 i0 hir hu0]
        rw [show decide (a.url = some u) = false from by simp [ha],
          Bool.or_false]
        rfl

theorem vp_catStep_mark (resolve : Str → Option Str) (u : Str) (c : Option Str)
    (items : List Item) (t : Item → Bool) (i0 : Item)
    (hnd : (items.map (fun i => i.url)).Nodup) (hi0 : i0 ∈ items)
    (hu0 : i0.url = some u)
    (hcm : pyTruthyS c = true → pyTruthyS i0.name = true) :
    catStep resolve (u, c)
      (items.map (fun i => { i with checked := some (t i) })) =
      items.map (fun i =>
        { i with checked := some (t i || decide (i.url = some u)) }) := by
  unfold catStep
  rw [vp_find_map_url u t items hnd i0 hi0 hu0]
  dsimp only
  rw [vp_updFC_map u t items hnd i0 hi0 hu0]
  have hcond : (pyTruthyS c &&
      !(pyTruthyS ({ i0 with checked := some (t i0) } : Item).name)) = false := by
    cases hx : pyTruthyS c with
    | false => rfl
    | true =>
        show (true && !(pyTruthyS i0.name)) = false
        rw [hcm hx]
        rfl
  rw [hcond]
  rw [if_neg (show ¬(false = true) from by simp)]
  rfl

theorem vp_catFold_mark (resolve : Str → Option Str) :
    ∀ (cs : List Item) (items : List Item) (t : Item → Bool),
    (items.map (fun i => i.url)).Nodup →
    (∀ c ∈ cs, c ∈ items ∧ (∃ uc, c.url = some uc) ∧
      (pyTruthyS (commentOut c) = true → pyTruthyS c.name = true)) →
    catFold resolve (cs.map emittedPair)
      (items.map (fun i => { i with checked := some (t i) })) =
      items.map (fun i => { i with checked := some (t i || cs.any (fun c2 => decide (i.url = c2.url))) }) := by
  intro cs
  induction cs with
  | nil =>
      intro items t _ _
      have h0 : catFold resolve (List.map emittedPair [])
          (items.map (fun i => { i with checked := some (t i) })) =
          items.map (fun i => { i with checked := some (t i) }) := rfl
      rw [h0]
      apply List.map_congr_left
      intro j _
      rw [show (List.any ([] : List Item)
          (fun c2 => decide (j.url = c2.url))) = false from rfl,
        Bool.or_false]
  | cons c cs' ih =>
      intro items t hnd hall
      obtain ⟨hcin, ⟨uc, hcu⟩, hcm⟩ := hall c (List.mem_cons_self c cs')
      show catFold resolve (cs'.map emittedPair)
        (catStep resolve (emittedPair c)
          (items.map (fun i => { i with checked := some (t i) }))) = _
      rw [show emittedPair c = (uc, commentOut c) from by
        unfold emittedPair
        rw [hcu]
        rfl]
      rw [vp_catStep_mark resolve uc (commentOut c) items t c hnd hcin hcu hcm]
      rw [ih items (fun i => t i || decide (i.url = some uc)) hnd
        (fun x hx => hall x (List.mem_cons_of_mem c hx))]
      apply List.map_congr_left
      intro j _
      have hb : ((t j || decide (j.url = some uc)) ||
          cs'.any (fun c2 => decide (j.url = c2.url))) =
          (t j || (c :: cs').any (fun c2 => decide (j.url = c2.url))) := by
        rw [List.any_cons, Bool.or_assoc,
          show decide (j.url = some uc) = decide (j.url = c.url) from by
            rw [hcu]]
      rw [hb]

theorem vp_catFold_final (resolve : Str → Option Str) (items : List Item)
    (hnd : (items.map (fun i => i.url)).Nodup)
    (hwf : ∀ i ∈ items, itemWF i) :
    catFold resolve ((checkedOf items).map emittedPair) (items.map clearItem) =
      items.map (fun i => { i with checked := some (decide (i.checked = some true)) }) := by
  have hall : ∀ c ∈ checkedOf items, c ∈ items ∧ (∃ uc, c.url = some uc) ∧
      (pyTruthyS (commentOut c) = true → pyTruthyS c.name = true) := by
    intro c hc
    obtain ⟨hcin, hcchk⟩ := vp_checkedOf_mem items c hc
    obtain ⟨hurl, -⟩ := hwf c hcin hcchk
    refine ⟨hcin, ?_, ?_⟩
    · cases hcu : c.url with
      | none =>
          exfalso
          apply hurl.1
          rw [hcu]
          rfl
      | some uc => exact ⟨uc, rfl⟩
    · intro hpt
      cases hn : c.name with
      | none =>
          exfalso
          unfold commentOut at hpt
          rw [hn] at hpt
          cases hpt
      | some n =>
          unfold commentOut at hpt
          rw [hn] at hpt
          have hpt2 : pyTruthyS (if n ≠ [] ∧ n ≠ c.url.getD [] then
              (if stripL n = [] then none else some (stripL n))
            else none) = true := hpt
          by_cases hcnd : n ≠ [] ∧ n ≠ c.url.getD []
          · show pyTruthyS (some n) = true
            unfold pyTruthyS
            simp [hcnd.1]
          · rw [if_neg hcnd] at hpt2
            cases hpt2
  have hstart : items.map clearItem =
      items.map (fun i => { i with checked := some ((fun _ : Item => false) i) }) := rfl
  rw [hstart, vp_catFold_mark resolve (checkedOf items) items
    (fun _ : Item => false) hnd hall]
  apply List.map_congr_left
  intro j hj
  have hb : (checkedOf items).any (fun c2 => decide (j.url = c2.url)) =
      decide (j.checked = some true) := by
    by_cases hj2 : j.checked = some true
    · rw [show decide (j.checked = some true) = true from by simp [hj2]]
      rw [List.any_eq_true]
      refine ⟨j, ?_, by simp⟩
      unfold checkedOf
      rw [List.mem_filter]
      exact ⟨hj, by rw [hj2]; rfl⟩
    · rw [show decide (j.checked = some true) = false from by simp [hj2]]
      rw [List.any_eq_false]
      intro c2 hc2
      obtain ⟨hcin, hcchk⟩ := vp_checkedOf_mem items c2 hc2
      intro hx
      have hjc : j.url = c2.url := by simpa using hx
      have hjc2 : j = c2 :=
        List.inj_on_of_nodup_map hnd hj hcin hjc
      rw [hjc2] at hj2
      exact hj2 hcchk
  rw [show ((fun _ : Item => false) j || (checkedOf items).any
      (fun c2 => decide (j.url = c2.url))) = (checkedOf items).any
      (fun c2 => decide (j.url = c2.url)) from Bool.false_or _, hb]

/-!  Round-trip assembly. -/

theorem vp_alookup_some_of_mem {α : Type} (k : Str) :
    ∀ (l : List (Str × α)), k ∈ l.map Prod.fst → ∃ v, alookup k l = some v := by
  intro l
  induction l with
  | nil => intro h; cases h
  | cons kv rest ih =>
      intro h
      by_cases hk : kv.1 = k
      · exact ⟨kv.2, by simp [alookup, hk]⟩
      · rcases List.mem_cons.mp h with h1 | h2
        · exact absurd h1.symm hk
        · obtain ⟨v, hv⟩ := ih h2
          exact ⟨v, by simp [alookup, hk, hv]⟩

theorem vp_filterMap_congr {α β : Type} (f g : α → Option β) :
    ∀ (l : List α), (∀ x ∈ l, f x = g x) → l.filterMap f = l.filterMap g := by
  intro l
  induction l with
  | nil => intro _; rfl
  | cons a l' ih =>
      intro h
      rw [List.filterMap_cons, List.filterMap_cons, h a (List.mem_cons_self a l'),
        ih (fun x hx => h x (List.mem_cons_of_mem a hx))]

/-- C1 (amended): for the modelled template, a database of the default
shape whose categories hold items with pairwise-distinct url fields, every
checked one well formed (nonempty url free of the script metacharacters,
stored name stripped and metacharacter-free), generates a script whose
parse against the same database (which `parse_script` itself first fully
unchecks) restores exactly the explicitly-checked items to checked, leaves
every other item unchecked, and keeps every item's url, name and folder:
each category list maps to itself with only the checked field rewritten to
its prior explicit-true value, so the per-category checked url lists are
preserved verbatim. -/
theorem c1_roundtrip_amended (resolve : Str → Option Str) (D : Database)
    (hshape : D.cats.map Prod.fst = categoryKeys)
    (hnd : ∀ k ∈ categoryKeys, ((getAllD D k).map (fun i => i.url)).Nodup)
    (hwf : ∀ k ∈ categoryKeys, ∀ i ∈ getAllD D k, itemWF i) :
    ∃ text, generate_script (some templateSh) D = Except.ok text ∧
      ∀ k ∈ categoryKeys,
        getAllD (parse_script resolve text D) k =
          (getAllD D k).map (fun i => { i with checked := some (decide (i.checked = some true)) }) ∧
        checkedUrls (parse_script resolve text D) k = checkedUrls D k := by
  refine ⟨scriptText D, vp_generate_eq D hwf, ?_⟩
  intro k hk
  obtain ⟨kv, hkv, hkv1⟩ := List.mem_map.mp (by
    rw [show patternsList.map Prod.fst = categoryKeys from by decide]
    exact hk : k ∈ patternsList.map Prod.fst)
  have hkm : (k, kv.2) ∈ patternsList := by
    rw [← hkv1]
    exact hkv
  obtain ⟨items, hlk⟩ := vp_alookup_some_of_mem k D.cats (by rw [hshape]; exact hk)
  have hgall : getAllD D k = items := by
    unfold getAllD
    rw [hlk]
    rfl
  have hpart1 : getAllD (parse_script resolve (scriptText D) D) k =
      (getAllD D k).map (fun i => { i with checked := some (decide (i.checked = some true)) }) := by
    have hL : getAllD (parse_script resolve (scriptText D) D) k =
        catFold resolve (extract_urls_from_array (scriptText D) kv.2)
          (items.map clearItem) := by
      unfold getAllD
      rw [vp_parse_at resolve (scriptText D) D k kv.2 items hkm hlk]
      rfl
    rw [hL, vp_extract_eq D k kv.2 hkm hwf, hgall]
    exact vp_catFold_final resolve items (by rw [← hgall]; exact hnd k hk)
      (by rw [← hgall]; exact hwf k hk)
  refine ⟨hpart1, ?_⟩
  unfold checkedUrls
  rw [hpart1, List.filterMap_map]
  apply vp_filterMap_congr
  intro i _
  by_cases hic : i.checked = some true
  · simp [hic]
  · simp [hic]

theorem c1_roundtrip_amended_witness :
    ∃ text, generate_script (some templateSh) c1WDb = Except.ok text ∧
      ∀ k ∈ categoryKeys,
        getAllD (parse_script noResolve text c1WDb) k =
          (getAllD c1WDb k).map (fun i => { i with checked := some (decide (i.checked = some true)) }) ∧
        checkedUrls (parse_script noResolve text c1WDb) k = checkedUrls c1WDb k :=
  c1_roundtrip_amended noResolve c1WDb (by decide) (by decide) (by decide)

/-- C1 counterexample: the round trip is not universal. A checked item
whose url is the empty string is in the checked-url set before the trip,
but the generator skips empty urls, so after parsing its own output the
item stays unchecked and the category's checked-url set is empty. -/
theorem c1_roundtrip_cex :
    checkedUrls c1CexDb ckKey = [[]] ∧
    (generate_script (some templateSh) c1CexDb).toOption.map
      (fun text => checkedUrls (parse_script noResolve text c1CexDb) ckKey) =
      some [] := by decide
